import Mathlib

/-!
Verification development for the OCR orchestration pipeline of
`proyecto-ocr-odoo`.  The Python sources embedded here are:

* `src/core/text_postprocessor.py` — `TextPostprocessor` (regex-based
  correction passes, quality metrics, confidence scoring);
* `src/integrations/ocr_providers/base_provider.py` — `OCROrchestrator`
  (`process_with_fallback`);
* `src/integrations/ocr_providers/ocr_space.py` — the engine-retry fragment
  of `OCRSpaceProvider._call_ocr_space_api`;
* `src/core/ocr_processor.py` — `OCRProcessor.process_image` (pipeline
  coordination, result cache).

Modelling conventions, fixed once here:

* Text is `List Char` internally, `String` at the API boundary.
* Python `float` confidences are modelled as `ℚ` (exact arithmetic; every
  constant in the source is a decimal literal).
* Each `re.sub` call of the source is implemented as a one-pass,
  left-to-right, non-overlapping leftmost replacement specialised to the
  concrete pattern of the source, with the greedy/backtracking behaviour of
  that concrete pattern worked out in the comment next to it.
* Character classes (`\s`, `\w`, `\d`, `str.strip`, `str.lower`) are
  modelled on the character repertoire this development exercises: the
  ASCII range plus the precomposed Latin letters `áéíóúüñÁÉÍÓÚÜÑ` appearing
  in the source's patterns.  Unicode-only whitespace and exotic cased
  letters are outside the modelled repertoire.
* `unicodedata.normalize('NFKC', ·)` is modelled as the identity: NFKC is
  the identity on the whole modelled repertoire, and no compatibility
  mapping of any character produces a newline, which is the only property
  the theorems below draw through this stage.
* Logging calls and timing measurements are elided; fields of returned
  dicts that carry only timing, logs or raw API payloads are omitted from
  the record types.
-/

/-! ## Character classes and elementary string utilities -/

/-- ASCII quote characters, written via code points to keep the source free
of quote-escape noise: `q1` is `'` (39) and `q2` is `"` (34). -/
def q1 : Char := Char.ofNat 39

/-- The double-quote character `\"` (code point 34). -/
def q2 : Char := Char.ofNat 34

/-- The backtick character (code point 96). -/
def btick : Char := Char.ofNat 96

/-- Python `\s` / `str.strip` whitespace, on the modelled repertoire:
space, tab, newline, carriage return, vertical tab, form feed. -/
def isPyWs (c : Char) : Bool :=
  c = ' ' || c = '\t' || c = '\n' || c = '\r' || c = '\x0b' || c = '\x0c'

/-- Python `\d` on the modelled repertoire: ASCII decimal digits. -/
def isDigitCh (c : Char) : Bool := '0' ≤ c && c ≤ '9'

/-- ASCII letters `[a-zA-Z]`. -/
def isAsciiLetter (c : Char) : Bool := ('a' ≤ c && c ≤ 'z') || ('A' ≤ c && c ≤ 'Z')

/-- The letter class `[A-Za-záéíóúüñ]` of the confusion-correction patterns
in `_load_correction_patterns` (note: accented capitals are NOT included,
exactly as in the source). -/
def letterClass (c : Char) : Bool :=
  isAsciiLetter c || c = 'á' || c = 'é' || c = 'í' || c = 'ó' || c = 'ú' || c = 'ü' || c = 'ñ'

/-- Python `\w` (word character) on the modelled repertoire: ASCII
alphanumerics, underscore, and the precomposed Latin letters used by the
source's patterns. -/
def isWordChar (c : Char) : Bool :=
  isAsciiLetter c || isDigitCh c || c = '_' ||
  c = 'á' || c = 'é' || c = 'í' || c = 'ó' || c = 'ú' || c = 'ü' || c = 'ñ' ||
  c = 'Á' || c = 'É' || c = 'Í' || c = 'Ó' || c = 'Ú' || c = 'Ü' || c = 'Ñ'

/-- Python `str.lower` on the modelled repertoire: ASCII `A–Z` and the
accented capitals map to their lowercase forms; everything else is fixed. -/
def pyLower (c : Char) : Char :=
  if 'A' ≤ c && c ≤ 'Z' then Char.ofNat (c.toNat + 32)
  else if c = 'Á' then 'á' else if c = 'É' then 'é' else if c = 'Í' then 'í'
  else if c = 'Ó' then 'ó' else if c = 'Ú' then 'ú' else if c = 'Ü' then 'ü'
  else if c = 'Ñ' then 'ñ' else c

/-- Python `str.strip()`: drop whitespace from both ends. -/
def pyStrip (l : List Char) : List Char :=
  ((l.dropWhile isPyWs).reverse.dropWhile isPyWs).reverse

/-- Does `pat` occur at the head of `l`? (plain list matching, used for the
literal substring searches of the source). -/
def leadsWith : List Char → List Char → Bool
  | [], _ => true
  | _ :: _, [] => false
  | a :: as, b :: bs => a = b && leadsWith as bs

/-- Does `pat` occur anywhere inside `l`? Models Python's `needle in hay`. -/
def containsSub (pat : List Char) : List Char → Bool
  | [] => leadsWith pat []
  | c :: cs => leadsWith pat (c :: cs) || containsSub pat cs

/-! ## Generic one-pass replacement combinators

`scanRepl f l` models a single `re.sub(pattern, repl, l)` call: at each
position, the matcher `f` receives the remaining suffix and either declines
(`none`) — the scan keeps the head character and moves one position right —
or returns the replacement text together with the number of characters the
match consumed (≥ 1 for every pattern in this development); the scan then
continues after the match, which is exactly `re.sub`'s non-overlapping
leftmost semantics.  Fuel (initialised to the length of the input, which
every step strictly decreases) keeps the recursion structural so that the
kernel can evaluate it. -/

def scanReplF (f : List Char → Option (List Char × Nat)) : Nat → List Char → List Char
  | 0, l => l
  | _ + 1, [] => []
  | fuel + 1, c :: cs =>
    match f (c :: cs) with
    | some (rep, n) => rep ++ scanReplF f fuel (cs.drop (n - 1))
    | none => c :: scanReplF f fuel cs

/-- One `re.sub` pass with matcher `f`; see `scanReplF`. -/
def scanRepl (f : List Char → Option (List Char × Nat)) (l : List Char) : List Char :=
  scanReplF f l.length l

/-- Rewrite every maximal run of word characters (a "token", the span
between two `\b` boundaries) through `g`, leaving the separating
non-word characters untouched.  The source's whole-token patterns
(`\b...\b`) are modelled through this combinator; the comment at each use
site justifies the equivalence with the original regex. -/
def mapTokensF (g : List Char → List Char) : Nat → List Char → List Char
  | 0, l => l
  | _ + 1, [] => []
  | fuel + 1, c :: cs =>
    if isWordChar c then
      g (c :: cs.takeWhile isWordChar) ++ mapTokensF g fuel (cs.dropWhile isWordChar)
    else
      c :: mapTokensF g fuel cs

/-- Apply `g` to every maximal word-character run of `l`; see `mapTokensF`. -/
def mapTokens (g : List Char → List Char) (l : List Char) : List Char :=
  mapTokensF g l.length l

/-- Replace every occurrence of the single literal character `a` by `b`
(models `re.sub` with a one-character literal pattern). -/
def replChar (a b : Char) (l : List Char) : List Char :=
  l.map fun c => if c = a then b else c

/-! ## `TextPostprocessor._load_correction_patterns` — the correction table

The source builds an insertion-ordered dict of regex → replacement pairs and
`_basic_cleanup` applies them sequentially with `re.sub`.  Each entry is
embedded below in the source's order.

The five patterns `\b([A-Za-záéíóúüñ]+)d([A-Za-záéíóúüñ]+)\b` (for
d ∈ {0,1,5,8,6}) can only match a whole maximal word-character run: `\b`
requires a word/non-word boundary, all characters of the pattern are word
characters, and no boundary exists inside a run — so the leftmost match,
when it exists, is exactly a token of the shape `letters, d, letters`, and
a token can host at most one match.  The same argument applies to the
`\b(\d+)X(\d+)\b` patterns and to every `\bword\b` pattern below. -/

/-- The shared shape of the nine confusion patterns
`\b(cls+)d(cls+)\b → \1X\2`: the token is rewritten iff it consists of a
non-empty `cls` run, exactly the character `d`, and another non-empty
`cls` run. -/
def fixConfusion (cls : Char → Bool) (d X : Char) (tok : List Char) : List Char :=
  let p := tok.takeWhile cls
  match tok.drop p.length with
  | c :: suf =>
    if c = d && !p.isEmpty && !suf.isEmpty && suf.all cls then p ++ X :: suf else tok
  | [] => tok

/-- One token under `\b([A-Za-záéíóúüñ]+)d([A-Za-záéíóúüñ]+)\b → \1X\2`:
rewritten iff the token is letters, then exactly `d`, then letters. -/
def fixDigitInLetters (d X : Char) (tok : List Char) : List Char :=
  fixConfusion letterClass d X tok

/-- One token under `\b(\d+)X(\d+)\b → \g<1>d\g<2>`: rewritten iff the token
is digits, then exactly `X`, then digits. -/
def fixLetterInDigits (X d : Char) (tok : List Char) : List Char :=
  fixConfusion isDigitCh X d tok

/-- The punctuation class `[,.;:!?]`. -/
def punctCls (c : Char) : Bool :=
  c = ',' || c = '.' || c = ';' || c = ':' || c = '!' || c = '?'

/-- Matcher for `\s+([,.;:!?]) → \1`: a maximal whitespace run directly
followed by a punctuation character collapses to that character.  (A
shorter `\s+` cannot match instead: it would have to end at a whitespace
character, which is not in the punctuation class.) -/
def mWsPunct (l : List Char) : Option (List Char × Nat) :=
  match l with
  | c :: _ =>
    if isPyWs c then
      let run := l.takeWhile isPyWs
      match l.drop run.length with
      | p :: _ => if punctCls p then some ([p], run.length + 1) else none
      | [] => none
    else none
  | [] => none

/-- Matcher for `\(\s+ → (` and `\[\s+ → [` (parameterised by the bracket). -/
def mOpenWs (br : Char) (l : List Char) : Option (List Char × Nat) :=
  match l with
  | c :: cs =>
    if c = br then
      let run := cs.takeWhile isPyWs
      if run.isEmpty then none else some ([br], run.length + 1)
    else none
  | [] => none

/-- Matcher for `\s+\) → )` and `\s+\] → ]` (parameterised by the bracket). -/
def mWsClose (br : Char) (l : List Char) : Option (List Char × Nat) :=
  match l with
  | c :: _ =>
    if isPyWs c then
      let run := l.takeWhile isPyWs
      match l.drop run.length with
      | p :: _ => if p = br then some ([br], run.length + 1) else none
      | [] => none
    else none
  | [] => none

/-- Matcher for `\s+ → ' '`: every maximal whitespace run becomes one space. -/
def mWsCollapse (l : List Char) : Option (List Char × Nat) :=
  match l with
  | c :: _ => if isPyWs c then some ([' '], (l.takeWhile isPyWs).length) else none
  | [] => none

/-- Matcher for `\n\s*\n\s*\n → '\n\n'`.  A match must start at a newline;
with both `\s*` greedy, it extends to the last newline of the maximal
whitespace run starting there, and needs at least three newlines in that
run.  The consumed length is the position just after the run's last
newline. -/
def mBlankLines (l : List Char) : Option (List Char × Nat) :=
  match l with
  | c :: _ =>
    if c = '\n' then
      let run := l.takeWhile isPyWs
      if 3 ≤ run.count '\n' then
        some (['\n', '\n'], run.length - (run.reverse.takeWhile (fun x => !(x = '\n'))).length)
      else none
    else none
  | [] => none

/-- Matcher for a regex that is a literal character sequence: replace each
occurrence of `pat` by `rep`. -/
def mLiteral (pat rep : List Char) (l : List Char) : Option (List Char × Nat) :=
  if leadsWith pat l then some (rep, pat.length) else none

/-- The accidental dict entry of the source: the two lines that were meant
to map curly quotes parse in Python as ONE raw triple-quoted string, so the
actual key is the literal pattern `: "'",\n            r` (colon, space,
double quote, quote, double quote, comma, newline, twelve spaces, `r`),
mapped to a single plain quote. -/
def strayQuotePat : List Char :=
  [':', ' ', q2, q1, q2, ',', '\n'] ++ List.replicate 12 ' ' ++ ['r']

/-- `unicodedata.normalize('NFKC', text)`: the identity on the modelled
repertoire (see the header comment). -/
def nfkc (l : List Char) : List Char := l

/-- Python `text.split('\n')`: split at every newline, keeping empty
segments (fuelled structural recursion, like `scanReplF`). -/
def splitNlF : Nat → List Char → List (List Char)
  | 0, l => [l]
  | fuel + 1, l =>
    let seg := l.takeWhile fun c => !(c = '\n')
    match l.drop seg.length with
    | [] => [seg]
    | _ :: rest => seg :: splitNlF fuel rest

/-- `text.split('\n')`; see `splitNlF`. -/
def splitNl (l : List Char) : List (List Char) :=
  splitNlF l.length l

/-- `'\n'.join(line.strip() for line in text.split('\n') if line.strip())`
from `_basic_cleanup`. -/
def splitLinesJoin (l : List Char) : List Char :=
  List.intercalate ['\n'] (((splitNl l).map pyStrip).filter fun s => !s.isEmpty)

/-- `TextPostprocessor._basic_cleanup`: NFKC normalisation, blank-line
removal, then the correction patterns applied in the dict's insertion
order.  (The entry `r'"': '"'` occurs twice in the source and its
replacement equals its pattern; it is kept as the identity substitution it
is.) -/
def basicCleanup (l : List Char) : List Char :=
  let t0 := nfkc l
  let t1 := splitLinesJoin t0
  let t2 := mapTokens (fixDigitInLetters '0' 'O') t1
  let t3 := mapTokens (fixDigitInLetters '1' 'I') t2
  let t4 := mapTokens (fixDigitInLetters '5' 'S') t3
  let t5 := mapTokens (fixDigitInLetters '8' 'B') t4
  let t6 := mapTokens (fixDigitInLetters '6' 'G') t5
  let t7 := mapTokens (fixLetterInDigits 'O' '0') t6
  let t8 := mapTokens (fixLetterInDigits 'I' '1') t7
  let t9 := mapTokens (fixLetterInDigits 'S' '5') t8
  let t10 := mapTokens (fixLetterInDigits 'B' '8') t9
  let t11 := replChar '|' 'I' t10
  let t12 := replChar btick q1 t11
  let t13 := replChar '´' q1 t12
  let t14 := scanRepl (mLiteral strayQuotePat [q1]) t13
  let t15 := replChar q2 q2 t14
  let t16 := replChar '°' 'o' t15
  let t17 := replChar '¢' 'c' t16
  let t18 := replChar '£' 'E' t17
  let t19 := scanRepl mWsPunct t18
  let t20 := scanRepl (mOpenWs '(') t19
  let t21 := scanRepl (mWsClose ')') t20
  let t22 := scanRepl (mOpenWs '[') t21
  let t23 := scanRepl (mWsClose ']') t22
  let t24 := scanRepl mWsCollapse t23
  scanRepl mBlankLines t24

/-! ## Language- and document-specific corrections -/

/-- One token under an IGNORECASE whole-word pattern `\bw\b → rep`
(`w` given in lowercase): tokens case-insensitively equal to `w` are
replaced by the literal `rep`, everything else is untouched. -/
def fixWordCi (w rep tok : List Char) : List Char :=
  if tok.map pyLower = w then rep else tok

/-- Like `fixWordCi` with two admissible spellings (for `TEL[EF]ONO`). -/
def fixWordCi2 (w1 w2 rep tok : List Char) : List Char :=
  if tok.map pyLower = w1 || tok.map pyLower = w2 then rep else tok

/-- Vowels `[aeiou]` under IGNORECASE (accented vowels are not in the
class, exactly as in the source). -/
def isVowelCi (c : Char) : Bool :=
  pyLower c = 'a' || pyLower c = 'e' || pyLower c = 'i' || pyLower c = 'o' || pyLower c = 'u'

/-- Matcher for `([aeiou])n([aeiou]) → \1ñ\2` (IGNORECASE): an `n` (or `N`)
with vowels on both sides becomes `ñ`, keeping the vowels. -/
def mVowelN (l : List Char) : Option (List Char × Nat) :=
  match l with
  | v1 :: c :: v2 :: _ =>
    if isVowelCi v1 && pyLower c = 'n' && isVowelCi v2 then some ([v1, 'ñ', v2], 3) else none
  | _ => none

/-- One correction pass that also counts, as the source does, whether the
pass changed the text (`corrections += 1` per changed pattern). -/
def countStep (f : List Char → List Char) (acc : List Char × Nat) : List Char × Nat :=
  let t := f acc.1
  (t, acc.2 + if t = acc.1 then 0 else 1)

/-- `TextPostprocessor._apply_language_corrections`.  The Spanish table
applies, in dict order: `\bñ\b → ñ`, `\bÑ\b → Ñ`, the vowel-n-vowel rule,
and the identity-lowercase words `que del con por para`; the English table
the words `the and with from this that` — all with IGNORECASE, so any-case
occurrences of those words are rewritten to lowercase.  Unknown language
codes change nothing and count zero corrections. -/
def applyLanguageCorrections (l : List Char) (language : String) : List Char × Nat :=
  if language = "es" then
    let s1 := countStep (mapTokens (fixWordCi ['ñ'] ['ñ'])) (l, 0)
    let s2 := countStep (mapTokens (fixWordCi ['ñ'] ['Ñ'])) s1
    let s3 := countStep (scanRepl mVowelN) s2
    let s4 := countStep (mapTokens (fixWordCi "que".toList "que".toList)) s3
    let s5 := countStep (mapTokens (fixWordCi "del".toList "del".toList)) s4
    let s6 := countStep (mapTokens (fixWordCi "con".toList "con".toList)) s5
    let s7 := countStep (mapTokens (fixWordCi "por".toList "por".toList)) s6
    countStep (mapTokens (fixWordCi "para".toList "para".toList)) s7
  else if language = "en" then
    let s1 := countStep (mapTokens (fixWordCi "the".toList "the".toList)) (l, 0)
    let s2 := countStep (mapTokens (fixWordCi "and".toList "and".toList)) s1
    let s3 := countStep (mapTokens (fixWordCi "with".toList "with".toList)) s2
    let s4 := countStep (mapTokens (fixWordCi "from".toList "from".toList)) s3
    let s5 := countStep (mapTokens (fixWordCi "this".toList "this".toList)) s4
    countStep (mapTokens (fixWordCi "that".toList "that".toList)) s5
  else (l, 0)

/-- Matcher for `(\d+)[.,](\d{2})\s*CUR → \1SEP\2 CUR` (the invoice
currency patterns; `CUR` is `€` with `SEP` a comma, or `$` with a dot).
`\d+` is greedy and maximal — shrinking it would place `[.,]` on a digit —
and after `(\d{2})` the greedy `\s*` must be the maximal whitespace run
directly followed by the currency sign. -/
def mCurrency (cur sepOut : Char) (l : List Char) : Option (List Char × Nat) :=
  let D := l.takeWhile isDigitCh
  if D.isEmpty then none else
  match l.drop D.length with
  | s :: rest =>
    if s = '.' || s = ',' then
      match rest with
      | d1 :: d2 :: rest2 =>
        if isDigitCh d1 && isDigitCh d2 then
          let run := rest2.takeWhile isPyWs
          match rest2.drop run.length with
          | c :: _ =>
            if c = cur then
              some (D ++ sepOut :: d1 :: d2 :: ' ' :: [cur], D.length + 3 + run.length + 1)
            else none
          | [] => none
        else none
      | _ => none
    else none
  | [] => none

/-- Matcher for `(\d{3})\s*(\d{3})\s*(\d{3}) → \1 \2 \3` (contact phone
spacing): three groups of exactly three digits with greedy whitespace in
between. -/
def mPhone (l : List Char) : Option (List Char × Nat) :=
  match l with
  | a1 :: a2 :: a3 :: rest =>
    if isDigitCh a1 && isDigitCh a2 && isDigitCh a3 then
      let w1 := rest.takeWhile isPyWs
      match rest.drop w1.length with
      | b1 :: b2 :: b3 :: rest2 =>
        if isDigitCh b1 && isDigitCh b2 && isDigitCh b3 then
          let w2 := rest2.takeWhile isPyWs
          match rest2.drop w2.length with
          | c1 :: c2 :: c3 :: _ =>
            if isDigitCh c1 && isDigitCh c2 && isDigitCh c3 then
              some ([a1, a2, a3, ' ', b1, b2, b3, ' ', c1, c2, c3], 9 + w1.length + w2.length)
            else none
          | _ => none
        else none
      | _ => none
    else none
  | _ => none

/-- Local-part class `[a-zA-Z0-9._%+-]` of the contact email pattern. -/
def localCls (c : Char) : Bool :=
  isAsciiLetter c || isDigitCh c || c = '.' || c = '_' || c = '%' || c = '+' || c = '-'

/-- Domain class `[a-zA-Z0-9.-]` of the contact email pattern. -/
def domCls (c : Char) : Bool :=
  isAsciiLetter c || isDigitCh c || c = '.' || c = '-'

/-- Backtracking search of `[a-zA-Z0-9.-]+\.[a-zA-Z]{2,}` inside the
maximal domain-class run: the greedy first group backtracks from the right,
so the match uses the RIGHTMOST dot followed by at least two ASCII letters,
and extends over the maximal letter run after that dot.  Returns the
matched characters. -/
def emailDomainAux : List Char → Option (List Char)
  | [] => none
  | c :: cs =>
    match emailDomainAux cs with
    | some m => some (c :: m)
    | none =>
      if c = '.' && 2 ≤ (cs.takeWhile isAsciiLetter).length then
        some ('.' :: cs.takeWhile isAsciiLetter)
      else none

/-- Matcher for the contact email pattern
`([a-zA-Z0-9._%+-]+)@([a-zA-Z0-9.-]+\.[a-zA-Z]{2,})`, replaced by the
lowercase of the whole match (`lambda m: m.group(0).lower()`).  The local
part is the maximal local-class run directly followed by `@` (shrinking the
greedy `+` would put `@` on a local-class character); the dot of the domain
must have at least one domain character before it. -/
def mEmail (l : List Char) : Option (List Char × Nat) :=
  let lp := l.takeWhile localCls
  if lp.isEmpty then none else
  match l.drop lp.length with
  | a :: rest =>
    if a = '@' then
      match rest.takeWhile domCls with
      | d0 :: ds =>
        match emailDomainAux ds with
        | some m => some ((lp ++ '@' :: d0 :: m).map pyLower, lp.length + 1 + (d0 :: m).length)
        | none => none
      | [] => none
    else none
  | [] => none

/-- `TextPostprocessor._apply_document_corrections`: the invoice table
(keyword casing, then the two currency patterns) and the contact table
(keyword casing, phone spacing, email lowercasing), in dict order; any
other document type changes nothing. -/
def applyDocumentCorrections (l : List Char) (documentType : String) : List Char × Nat :=
  if documentType = "invoice" then
    let s1 := countStep (mapTokens (fixWordCi "factura".toList "FACTURA".toList)) (l, 0)
    let s2 := countStep (mapTokens (fixWordCi "factura".toList "factura".toList)) s1
    let s3 := countStep (mapTokens (fixWordCi "total".toList "TOTAL".toList)) s2
    let s4 := countStep (mapTokens (fixWordCi "iva".toList "IVA".toList)) s3
    let s5 := countStep (mapTokens (fixWordCi "subtotal".toList "SUBTOTAL".toList)) s4
    let s6 := countStep (scanRepl (mCurrency '€' ',')) s5
    countStep (scanRepl (mCurrency '$' '.')) s6
  else if documentType = "contact" then
    let s1 := countStep
      (mapTokens (fixWordCi2 "teleono".toList "telfono".toList "TELÉFONO".toList)) (l, 0)
    let s2 := countStep (mapTokens (fixWordCi "email".toList "EMAIL".toList)) s1
    let s3 := countStep (mapTokens (fixWordCi "direccion".toList "DIRECCIÓN".toList)) s2
    let s4 := countStep (scanRepl mPhone) s3
    countStep (scanRepl mEmail) s4
  else (l, 0)

/-! ## Quality metrics and confidence scoring -/

/-- The maximal runs of characters satisfying `p` (e.g. `re.findall` with a
pattern `cls+`), left to right.  Fuelled like `scanReplF`. -/
def runsOfF (p : Char → Bool) : Nat → List Char → List (List Char)
  | 0, _ => []
  | _ + 1, [] => []
  | fuel + 1, c :: cs =>
    if p c then (c :: cs.takeWhile p) :: runsOfF p fuel (cs.dropWhile p)
    else runsOfF p fuel cs

/-- Maximal `p`-runs of `l`; see `runsOfF`. -/
def runsOf (p : Char → Bool) (l : List Char) : List (List Char) :=
  runsOfF p l.length l

/-- The word-character tokens of `l` (`re.findall(r'\b\w+\b', l)`: every
maximal word-character run is one match). -/
def tokens (l : List Char) : List (List Char) :=
  runsOf isWordChar l

/-- `quality_metrics` of `TextPostprocessor._analyze_quality`.  The three
`…Frac` fields model the source's `special_chars_ratio`, `digit_ratio` and
`space_ratio` dict keys.  For empty text the source returns a four-key
dict; the zero record models it, since every later read of a missing key
goes through `.get` with a `False`/`0` default. -/
structure QualityMetrics where
  words : Nat
  chars : Nat
  lines : Nat
  avgWordLength : ℚ
  hasNumbers : Bool
  hasPunctuation : Bool
  hasUppercase : Bool
  hasLowercase : Bool
  specialFrac : ℚ
  digitFrac : ℚ
  spaceFrac : ℚ
  deriving DecidableEq, Repr

/-- `TextPostprocessor._analyze_quality`. -/
def analyzeQuality (l : List Char) : QualityMetrics :=
  if l.isEmpty then
    { words := 0, chars := 0, lines := 0, avgWordLength := 0, hasNumbers := false
      hasPunctuation := false, hasUppercase := false, hasLowercase := false
      specialFrac := 0, digitFrac := 0, spaceFrac := 0 }
  else
    let ws := tokens l
    { words := ws.length
      chars := l.length
      lines := (splitNl l).length
      avgWordLength := ((ws.foldl (fun acc w => acc + w.length) 0 : Nat) : ℚ) / (max ws.length 1 : ℚ)
      hasNumbers := l.any isDigitCh
      hasPunctuation := l.any punctCls
      hasUppercase := l.any fun c => 'A' ≤ c && c ≤ 'Z'
      hasLowercase := l.any fun c => 'a' ≤ c && c ≤ 'z'
      specialFrac := (l.countP (fun c => !isWordChar c && !isPyWs c) : ℚ) / (max l.length 1 : ℚ)
      digitFrac := (l.countP isDigitCh : ℚ) / (max l.length 1 : ℚ)
      spaceFrac := (l.countP isPyWs : ℚ) / (max l.length 1 : ℚ) }

/-- The Spanish function words of the last confidence rule. -/
def commonEsWords : List (List Char) :=
  ["el", "la", "de", "en", "y", "a", "un", "una", "con", "por", "para", "como", "su",
   "del", "al"].map String.toList

/-- One confidence rule of `_load_confidence_rules`: add
`weight * min(matches / 10, 1.0)` when at least one match exists. -/
def ruleBump (hits : Nat) (weight : ℚ) : ℚ :=
  if 0 < hits then weight * min ((hits : ℚ) / 10) 1 else 0

/-- `TextPostprocessor._calculate_confidence`.  All five rules run with
IGNORECASE, so: `\d+` counts maximal digit runs; `[A-Z][a-z]+` counts
maximal ASCII-letter runs of length ≥ 2 (one greedy match eats a whole
run); `\b[a-zA-Z]{3,}\b` counts whole tokens of ≥ 3 ASCII letters (a
boundary cannot sit inside a token); `[,.;:!?]` counts punctuation
characters; the word alternation counts tokens equal (case-insensitively)
to a listed function word. -/
def calcConfidence (l : List Char) (m : QualityMetrics) : ℚ :=
  if l.isEmpty then 0 else
  let c1 := (0 : ℚ) + ruleBump (runsOf isDigitCh l).length (1/10)
  let c2 := c1 + ruleBump ((runsOf isAsciiLetter l).countP fun r => 2 ≤ r.length) (2/10)
  let c3 := c2 + ruleBump ((tokens l).countP fun t => 3 ≤ t.length && t.all isAsciiLetter) (3/10)
  let c4 := c3 + ruleBump (l.countP punctCls) (1/10)
  let c5 := c4 + ruleBump ((tokens l).countP fun t => commonEsWords.any fun w => t.map pyLower = w) (2/10)
  let c6 := if l.length < 10 then c5 * (5/10) else c5
  let c7 := if m.hasPunctuation then c6 + 1/10 else c6
  let c8 := if m.hasUppercase && m.hasLowercase then c7 + 1/10 else c7
  let c9 := if (3/10 : ℚ) < m.specialFrac then c8 * (7/10) else c8
  min c9 1

/-- The record returned by `TextPostprocessor.process_advanced`
(`detected_elements` is omitted: no claim depends on it and no other field
reads it; `lengthChange` is `0` in the empty-input branch, where the source
omits the key). -/
structure PostResult where
  text : String
  confidenceScore : ℚ
  correctionsApplied : Nat
  qualityMetrics : QualityMetrics
  lengthChange : Int
  deriving DecidableEq, Repr

/-- `TextPostprocessor.process_advanced`: basic cleanup, language
corrections, document corrections, quality analysis, confidence scoring,
final strip. -/
def processAdvanced (text : String) (language : String) (documentType : String) : PostResult :=
  if text = "" then
    { text := "", confidenceScore := 0, correctionsApplied := 0
      qualityMetrics := analyzeQuality [], lengthChange := 0 }
  else
    let original := text.toList
    let cleaned := basicCleanup original
    let lc := applyLanguageCorrections cleaned language
    let dc := applyDocumentCorrections lc.1 documentType
    let specialized := dc.1
    let metrics := analyzeQuality specialized
    let conf := calcConfidence specialized metrics
    let finalText := pyStrip specialized
    { text := String.mk finalText
      confidenceScore := conf
      correctionsApplied := lc.2 + dc.2
      qualityMetrics := metrics
      lengthChange := (finalText.length : Int) - (original.length : Int) }

/-! ## `OCROrchestrator` (`base_provider.py`) -/

/-- The provider result record (`OCRResult` of `base_provider.py`), with
the `provider`/`language` fields the orchestrator fills in; the
timing/metadata/raw-response fields are omitted (nothing reads them). -/
structure OCRResult where
  success : Bool
  text : String
  confidence : ℚ
  provider : String
  language : String
  errorMessage : Option String
  deriving DecidableEq, Repr

/-- What one iteration of the fallback loop observes about a provider:
its image validation failed (`continue`), the provider call raised
(`except Exception` branch), or it returned a result dict (already
combined with the provider/language fields as in
`OCRResult(**result_dict, provider=..., language=...)`). -/
inductive Attempt where
  | invalid : Attempt
  | exc : String → Attempt
  | res : OCRResult → Attempt
  deriving DecidableEq, Repr

/-- `OCROrchestrator.min_confidence_threshold` as initialised in
`__init__`: the literal `0.7`, i.e. the rational 7/10 (spelled with
`mkRat` so that the kernel can evaluate comparisons against it). -/
def minConfidenceThreshold : ℚ := mkRat 7 10

/-- Python string formatting of the remembered `last_error` (an
`Optional[str]`): `None` formats as `"None"`. -/
def errMsgStr : Option String → String
  | some m => m
  | none => "None"

/-- The provider loop of `process_with_fallback`: walks the (already
truncated) provider list carrying the remembered below-threshold success
(`last_result`, overwritten on every below-threshold success) and the last
error message. -/
def fallbackLoop (threshold : ℚ) :
    List Attempt → Option OCRResult → String → OCRResult
  | [], lastRes, lastErr =>
    match lastRes with
    | some r => r
    | none =>
      { success := false, text := "", confidence := 0, provider := "", language := ""
        errorMessage := some ("Todos los proveedores fallaron. Último error: " ++ lastErr) }
  | a :: rest, lastRes, lastErr =>
    match a with
    | .invalid => fallbackLoop threshold rest lastRes lastErr
    | .exc m => fallbackLoop threshold rest lastRes m
    | .res r =>
      if r.success = true ∧ threshold ≤ r.confidence then r
      else if r.success = true then fallbackLoop threshold rest (some r) lastErr
      else fallbackLoop threshold rest lastRes (errMsgStr r.errorMessage)

/-- `OCROrchestrator.process_with_fallback`.  `max_attempts` is the Python
`max_attempts or len(self.providers)`: both `None` and `0` mean "all
providers"; the loop runs over `providers[:max_attempts]`. -/
def processWithFallback (threshold : ℚ) (providers : List Attempt)
    (maxAttempts : Option Nat) : OCRResult :=
  if providers.isEmpty then
    { success := false, text := "", confidence := 0, provider := "", language := ""
      errorMessage := some "No hay proveedores de OCR disponibles" }
  else
    let n := match maxAttempts with
      | none => providers.length
      | some 0 => providers.length
      | some k => k
    fallbackLoop threshold (providers.take n) none "No se pudo procesar la imagen"

/-! ## `OCRSpaceProvider._call_ocr_space_api` — engine-retry fragment

The fragment embedded here is the handling of a decoded API payload (the
body of the `try` after `response.json()`).  The network layer
(`requests.post`, the HTTP-status retry loop with backoff) is outside the
modelled fragment: the payload the API returns for a given engine id is an
oracle `api : Nat → ApiResp`.  A `raise RuntimeError` escapes the function
(the `except` clauses catch only `requests` exceptions), so it is modelled
as `Except.error`. -/

/-- The decoded OCR.Space payload, as the source's branches distinguish it:
`IsErroredOnProcessing` with the already-stringified error message, an
empty `ParsedResults`, or a parsed result carrying `ParsedText` and the
value `_calculate_confidence` computes for it. -/
inductive ApiResp where
  | errored : String → ApiResp
  | noResults : ApiResp
  | parsed : String → ℚ → ApiResp

/-- The result dict of the payload-handling fragment. -/
structure SpaceReturn where
  success : Bool
  text : String
  confidence : ℚ
  errorMessage : Option String
  deriving Repr

/-- Payload handling of `_call_ocr_space_api` for engine `engine`:
on an API-reported processing error whose message contains
`"internal server error"` (after `.lower()`) AND `engine == 2`, one
immediate retry with engine 3 and a single attempt; any other API-reported
error raises `RuntimeError`.  The `fuel` argument only makes the recursion
structural; `2` is enough for every chain, since the retry branch requires
`engine = 2` and switches to engine 3, which can never retry again. -/
def callSpaceF (api : Nat → ApiResp) : Nat → Nat → Except String SpaceReturn
  | 0, _ => .error "unreachable: the engine-retry chain has length at most 2"
  | fuel + 1, engine =>
    match api engine with
    | .errored msg =>
      if containsSub "internal server error".toList ((msg.toList).map pyLower) ∧ engine = 2 then
        callSpaceF api fuel 3
      else
        .error ("OCR.Space error: " ++ msg)
    | .noResults =>
      .ok { success := false, text := "", confidence := 0
            errorMessage := some "No se detectó texto en la imagen" }
    | .parsed rawText conf =>
      .ok { success := true, text := String.mk (pyStrip rawText.toList), confidence := conf
            errorMessage := none }

/-- `_call_ocr_space_api`'s payload handling, entered with the caller's
engine id. -/
def callOcrSpaceApi (api : Nat → ApiResp) (engine : Nat) : Except String SpaceReturn :=
  callSpaceF api 2 engine

/-! ## `OCRProcessor.process_image` (`ocr_processor.py`) -/

/-- The pipeline's externally visible record.  The success dict carries
`image_hash`; the exception dict does not (modelled by `Option`).  Timing,
`pipeline_log` and the `details` sub-dict are elided (see the header);
`details` fields that claims mention (the orchestrator's confidence) are
available as the `runOcr` argument of `processImage` itself. -/
structure PipelineResult where
  success : Bool
  text : String
  confidence : ℚ
  cached : Bool
  imageHash : Option Nat
  errorMessage : Option String
  deriving Repr

/-- The in-memory result cache `self.cache`, in insertion order (Python
dicts preserve it).  Keys are SHA-256 hex digests; since all digests have
the same length, the `min()` Python takes over them (lexicographic on
strings) coincides with numeric order, so keys are modelled as `ℕ`. -/
abbrev Cache := List (Nat × PipelineResult)

/-- `image_hash in self.cache` / `self.cache[image_hash]`. -/
def cacheLookup (cache : Cache) (h : Nat) : Option PipelineResult :=
  (List.find? (fun e => e.1 = h) cache).map (fun e => e.2)

/-- `self.cache[image_hash] = value`: update in place if the key exists
(keeping its position, as Python dict assignment does), else append. -/
def cacheStore (cache : Cache) (h : Nat) (v : PipelineResult) : Cache :=
  if (List.any cache fun e => e.1 = h) then
    List.map (fun e => if e.1 = h then (h, v) else e) cache
  else
    cache ++ [(h, v)]

/-- The post-insertion trim of `process_image`:
`if len(self.cache) > 100: oldest_key = min(self.cache.keys()); del ...`.
Note the evicted key is the MINIMUM key, not the oldest-inserted one. -/
def cacheEvict (cache : Cache) : Cache :=
  if 100 < List.length cache then
    match (List.map Prod.fst cache).min? with
    | some k => List.eraseP (fun e => decide (e.1 = k)) cache
    | none => cache
  else cache

/-- The failure dict built in the `except` handler of `process_image`. -/
def failureResult (e : String) : PipelineResult :=
  { success := false, text := "", confidence := 0, cached := false
    imageHash := none, errorMessage := some e }

/-- Steps 3–8 of `process_image` for a non-cached run that reached the
OCR result `ocr`: postprocess, blend the confidences, build the final
record, and store it (insert, then trim) when successful and caching is
on. -/
def processImageFull (cache : Cache) (useCache : Bool)
    (language documentType : String) (h : Nat) (ocr : OCRResult) :
    PipelineResult × Cache :=
  let post := processAdvanced ocr.text language documentType
  let finalConfidence := ocr.confidence * (7/10) + post.confidenceScore * (3/10)
  let finalResult : PipelineResult :=
    { success := ocr.success && !(pyStrip post.text.toList).isEmpty
      text := post.text
      confidence := finalConfidence
      cached := false
      imageHash := some h
      errorMessage := none }
  let cacheAfter :=
    if finalResult.success && useCache then cacheEvict (cacheStore cache h finalResult)
    else cache
  (finalResult, cacheAfter)

/-- The body of `process_image`'s `try` block.  The stages that can raise
are oracles: `hashImage` for `_calculate_image_hash` (step 1) and `runOcr`
for preprocessing plus `process_with_fallback` (steps 3–5; only the
`OCRResult` they produce flows onward).  Postprocessing is the (total)
embedded `processAdvanced`.  Raising anywhere is `Except.error`, caught by
`processImage` below. -/
def processImageBody (cache : Cache) (useCache : Bool)
    (language documentType : String)
    (hashImage : Except String Nat) (runOcr : Except String OCRResult) :
    Except String (PipelineResult × Cache) := do
  let h ← hashImage
  match (if useCache then cacheLookup cache h else none) with
  | some entry => return ({ entry with cached := true }, cache)
  | none =>
    let ocr ← runOcr
    return processImageFull cache useCache language documentType h ocr

/-- `OCRProcessor.process_image`: run the body, catch any exception at the
run boundary and convert it to a failure record, leaving the cache as it
was. -/
def processImage (cache : Cache) (useCache : Bool)
    (language documentType : String)
    (hashImage : Except String Nat) (runOcr : Except String OCRResult) :
    PipelineResult × Cache :=
  match processImageBody cache useCache language documentType hashImage runOcr with
  | .ok r => r
  | .error e => (failureResult e, cache)

/-! ### Run-shape lemmas for `processImage` -/

/-- A hashing-stage exception is caught: failure record, cache unchanged. -/
theorem processImage_hash_error (cache : Cache) (useCache : Bool)
    (language documentType : String) (e : String)
    (runOcr : Except String OCRResult) :
    processImage cache useCache language documentType (.error e) runOcr
      = (failureResult e, cache) := rfl

/-- A cache hit returns the stored entry with `cached := true` and leaves
the cache unchanged. -/
theorem processImage_cache_hit (cache : Cache) (useCache : Bool)
    (language documentType : String) (h : Nat) (entry : PipelineResult)
    (runOcr : Except String OCRResult)
    (hhit : (if useCache then cacheLookup cache h else none) = some entry) :
    processImage cache useCache language documentType (.ok h) runOcr
      = ({ entry with cached := true }, cache) := by
  unfold processImage processImageBody
  simp only [bind, Except.bind]
  rw [hhit]
  rfl

/-- An orchestration-stage exception on a cache miss is caught: failure
record, cache unchanged. -/
theorem processImage_ocr_error (cache : Cache) (useCache : Bool)
    (language documentType : String) (h : Nat) (e : String)
    (hmiss : (if useCache then cacheLookup cache h else none) = none) :
    processImage cache useCache language documentType (.ok h) (.error e)
      = (failureResult e, cache) := by
  unfold processImage processImageBody
  simp only [bind, Except.bind]
  rw [hmiss]

/-- A non-cached run with an OCR result performs the full pipeline. -/
theorem processImage_full_run (cache : Cache) (useCache : Bool)
    (language documentType : String) (h : Nat) (ocr : OCRResult)
    (hmiss : (if useCache then cacheLookup cache h else none) = none) :
    processImage cache useCache language documentType (.ok h) (.ok ocr)
      = processImageFull cache useCache language documentType h ocr := by
  unfold processImage processImageBody
  simp only [bind, Except.bind]
  rw [hmiss]
  rfl

/-- The final cache of a full run, spelled out. -/
theorem processImageFull_snd (cache : Cache) (useCache : Bool)
    (language documentType : String) (h : Nat) (ocr : OCRResult) :
    (processImageFull cache useCache language documentType h ocr).2
      = if (processImageFull cache useCache language documentType h ocr).1.success && useCache
          then cacheEvict (cacheStore cache h
            (processImageFull cache useCache language documentType h ocr).1)
          else cache := rfl

/-! ## Claim C1 — acceptance threshold -/

/-- First provider's result for the C1 evaluation: a success at confidence
40 on the provider 0–100 scale. -/
def res40 : OCRResult :=
  { success := true, text := "first", confidence := 40, provider := "OCR.Space"
    language := "es", errorMessage := none }

/-- Second provider's result for the C1 evaluation. -/
def res90 : OCRResult :=
  { success := true, text := "second", confidence := 90, provider := "Tesseract"
    language := "es", errorMessage := none }

/-- C1: the claim (threshold defaults to 70 on the 0–100 confidence scale,
so a successful confidence-40 result is NOT accepted immediately) does not
hold of the code: `__init__` sets `min_confidence_threshold = 0.7`, while
provider confidences are reported on the 0–100 scale, so a successful
result with confidence 40 satisfies `confidence >= threshold` and is
returned immediately — `process_with_fallback` never consults the second
provider and returns the first provider's result. -/
theorem C1_confidence40_short_circuits :
    processWithFallback minConfidenceThreshold [.res res40, .res res90] none = res40 ∧
    minConfidenceThreshold = 7 / 10 := by
  constructor
  · decide
  · simp [minConfidenceThreshold, Rat.mkRat_eq_div]

/-! ## Claim C2 — below-threshold fallback bookkeeping -/

/-- Does attempt `a` carry a result the loop accepts outright (successful
and at or above the threshold)? -/
def acceptable (threshold : ℚ) : Attempt → Prop
  | .res r => r.success = true ∧ threshold ≤ r.confidence
  | .invalid => False
  | .exc _ => False

/-- The LAST successful result in the attempt list: when no attempt is
accepted outright this is the value Python's `last_result` holds after the
loop, because `last_result = result` overwrites unconditionally. -/
def lastSuccess : List Attempt → Option OCRResult
  | [] => none
  | .invalid :: rest => lastSuccess rest
  | .exc _ :: rest => lastSuccess rest
  | .res r :: rest =>
    match lastSuccess rest with
    | some rr => some rr
    | none => if r.success = true then some r else none

/-- First below-threshold success for the C2 counterexample. -/
def resHalfA : OCRResult :=
  { success := true, text := "primero", confidence := mkRat 1 2, provider := "P1"
    language := "es", errorMessage := none }

/-- Second below-threshold success, same confidence, different text. -/
def resHalfB : OCRResult :=
  { success := true, text := "segundo", confidence := mkRat 1 2, provider := "P2"
    language := "es", errorMessage := none }

/-- C2 counterexample: two successful sub-threshold results with EQUAL
confidence; the claim says the first recorded one is returned ("a later
successful sub-threshold result with lower or equal confidence never
replaces the remembered best-so-far"), but `process_with_fallback` returns
the SECOND: `last_result = result` overwrites on every sub-threshold
success. -/
theorem C2_cex_later_equal_replaces :
    processWithFallback minConfidenceThreshold [.res resHalfA, .res resHalfB] none = resHalfB ∧
    resHalfB.text ≠ resHalfA.text ∧
    resHalfA.success = true ∧ resHalfB.success = true ∧
    resHalfB.confidence ≤ resHalfA.confidence ∧
    resHalfA.confidence < minConfidenceThreshold := by
  refine ⟨by decide, by decide, rfl, rfl, by decide, by decide⟩

/-- When no attempt is acceptable and no success exists, the loop keeps
whatever sub-threshold success it already remembered. -/
theorem fallbackLoop_pending (threshold : ℚ) :
    ∀ (provs : List Attempt) (x : OCRResult) (err : String),
      (∀ a ∈ provs, ¬ acceptable threshold a) →
      lastSuccess provs = none →
      fallbackLoop threshold provs (some x) err = x := by
  intro provs
  induction provs with
  | nil => intro x err _ _; rfl
  | cons a rest ih =>
    intro x err hacc hlast
    have hrest : ∀ b ∈ rest, ¬ acceptable threshold b := fun b hb =>
      hacc b (List.mem_cons_of_mem a hb)
    cases a with
    | invalid =>
      simp only [lastSuccess] at hlast
      simpa only [fallbackLoop] using ih x err hrest hlast
    | exc m =>
      simp only [lastSuccess] at hlast
      simpa only [fallbackLoop] using ih x m hrest hlast
    | res r =>
      have hlr : lastSuccess rest = none := by
        simp only [lastSuccess] at hlast
        cases h : lastSuccess rest with
        | none => rfl
        | some rr => rw [h] at hlast; simp at hlast
      have hs : ¬ (r.success = true) := by
        simp only [lastSuccess, hlr] at hlast
        intro h
        simp [h] at hlast
      have hna' : ¬ (r.success = true ∧ threshold ≤ r.confidence) :=
        hacc (.res r) (List.mem_cons_self _ _)
      simp only [fallbackLoop]
      rw [if_neg hna', if_neg hs]
      exact ih x _ hrest hlr

/-- When no attempt is acceptable, the loop returns the LAST successful
result of the list (whatever was already remembered is displaced by it). -/
theorem fallbackLoop_lastSuccess (threshold : ℚ) :
    ∀ (provs : List Attempt) (acc : Option OCRResult) (err : String) (r : OCRResult),
      (∀ a ∈ provs, ¬ acceptable threshold a) →
      lastSuccess provs = some r →
      fallbackLoop threshold provs acc err = r := by
  intro provs
  induction provs with
  | nil => intro acc err r _ hlast; simp [lastSuccess] at hlast
  | cons a rest ih =>
    intro acc err r hacc hlast
    have hrest : ∀ b ∈ rest, ¬ acceptable threshold b := fun b hb =>
      hacc b (List.mem_cons_of_mem a hb)
    cases a with
    | invalid =>
      simp only [lastSuccess] at hlast
      simpa only [fallbackLoop] using ih acc err r hrest hlast
    | exc m =>
      simp only [lastSuccess] at hlast
      simpa only [fallbackLoop] using ih acc m r hrest hlast
    | res x =>
      have hna' : ¬ (x.success = true ∧ threshold ≤ x.confidence) :=
        hacc (.res x) (List.mem_cons_self _ _)
      simp only [fallbackLoop]
      rw [if_neg hna']
      cases h : lastSuccess rest with
      | some rr =>
        have hr : rr = r := by
          simp only [lastSuccess, h] at hlast
          exact Option.some.inj hlast
        subst hr
        by_cases hs : x.success = true
        · rw [if_pos hs]; exact ih (some x) err rr hrest h
        · rw [if_neg hs]; exact ih acc _ rr hrest h
      | none =>
        have hx : x.success = true ∧ x = r := by
          simp only [lastSuccess, h] at hlast
          by_cases hs : x.success = true
          · rw [if_pos hs] at hlast; exact ⟨hs, Option.some.inj hlast⟩
          · rw [if_neg hs] at hlast; simp at hlast
        rw [if_pos hx.1, ← hx.2]
        exact fallbackLoop_pending threshold rest x err hrest h

/-- C2 amended: when no provider result is accepted outright,
`process_with_fallback` returns the LAST successful (necessarily
sub-threshold) result of the attempt sequence — a later sub-threshold
success always replaces the remembered one, regardless of its confidence —
and that remembered success is returned instead of a total failure once
the providers are exhausted. -/
theorem C2_amended_last_subthreshold_success_returned
    (threshold : ℚ) (provs : List Attempt) (r : OCRResult)
    (hacc : ∀ a ∈ provs, ¬ acceptable threshold a)
    (hlast : lastSuccess provs = some r) :
    processWithFallback threshold provs none = r := by
  have hne : provs ≠ [] := by
    intro h
    subst h
    simp [lastSuccess] at hlast
  unfold processWithFallback
  rw [if_neg (by simpa [List.isEmpty_iff] using hne)]
  simpa [List.take_length] using
    fallbackLoop_lastSuccess threshold provs none "No se pudo procesar la imagen" r hacc hlast

/-- Witness for `C2_amended_last_subthreshold_success_returned` at the
concrete two-provider list of the counterexample. -/
theorem C2_amended_witness :
    processWithFallback minConfidenceThreshold [.res resHalfA, .res resHalfB] none = resHalfB :=
  C2_amended_last_subthreshold_success_returned minConfidenceThreshold
    [.res resHalfA, .res resHalfB] resHalfB
    (by
      intro a ha
      fin_cases ha
      · exact fun hh => (by decide : ¬ (minConfidenceThreshold ≤ resHalfA.confidence)) hh.2
      · exact fun hh => (by decide : ¬ (minConfidenceThreshold ≤ resHalfB.confidence)) hh.2)
    rfl

/-! ## Claim C7 — idempotence of postprocessing -/

/-- C7: the claimed idempotence fails on the code.  On `"anana"` (Spanish,
general document) the first pass rewrites the vowel–n–vowel site to give
`"añana"`, but the rewrite creates a NEW vowel–n–vowel site, so a second
pass yields `"añaña"` — applying `process_advanced` to the text field of
its own output does not reproduce it. -/
theorem C7_not_idempotent_on_anana :
    (processAdvanced "anana" "es" "general").text = "añana" ∧
    (processAdvanced (processAdvanced "anana" "es" "general").text "es" "general").text
      = "añaña" ∧
    (processAdvanced (processAdvanced "anana" "es" "general").text "es" "general").text
      ≠ (processAdvanced "anana" "es" "general").text := by
  refine ⟨by decide, by decide, by decide⟩

/-! ## Claim C9 — engine retry policy -/

/-- C9 counterexample oracle: engine 3 reports an internal server error,
engine 1 would parse successfully. -/
def apiEngine3Down : Nat → ApiResp := fun e =>
  if e = 1 then .parsed "ok" 80 else .errored "Internal Server Error"

/-- C9 counterexample: the claim's cyclic fallback `2→3→1→2` does not hold
of the code.  With engine 3 failing on an engine-specific processing error
and engine 1 healthy, the call entered with engine 3 raises
(`RuntimeError`, escalating to provider-level failure) instead of retrying
once with engine 1: the retry branch fires only when `engine == 2`. -/
theorem C9_cex_engine3_error_not_retried :
    callOcrSpaceApi apiEngine3Down 3 = .error "OCR.Space error: Internal Server Error" ∧
    apiEngine3Down 1 = .parsed "ok" 80 :=
  ⟨rfl, rfl⟩

/-- C9 amended: on an API-reported processing failure the one-shot
alternate-engine retry happens exactly when the failing engine is 2 AND
the (lowercased) error message contains `"internal server error"`; the
retry is a single engine-3 call whose payload outcome is final.  In every
other case the error escalates immediately (a `RuntimeError` that the
surrounding provider code converts into provider failure and
orchestrator-level fallback). -/
theorem C9_amended_retry_only_engine2
    (api : Nat → ApiResp) (engine : Nat) (msg : String)
    (herr : api engine = .errored msg) :
    (engine = 2 →
      containsSub "internal server error".toList (msg.toList.map pyLower) = true →
      callOcrSpaceApi api engine = callOcrSpaceApi api 3) ∧
    (engine ≠ 2 ∨ containsSub "internal server error".toList (msg.toList.map pyLower) = false →
      callOcrSpaceApi api engine = .error ("OCR.Space error: " ++ msg)) := by
  constructor
  · intro he hmsg
    subst he
    unfold callOcrSpaceApi
    simp only [callSpaceF, herr]
    rw [if_pos ⟨hmsg, trivial⟩]
    cases h3 : api 3 with
    | errored m3 =>
      simp only [callSpaceF, h3]
      rw [if_neg (by rintro ⟨-, h⟩; exact absurd h (by decide)),
        if_neg (by rintro ⟨-, h⟩; exact absurd h (by decide))]
    | noResults => simp only [callSpaceF, h3]
    | parsed t conf => simp only [callSpaceF, h3]
  · intro hcase
    unfold callOcrSpaceApi
    simp only [callSpaceF, herr]
    rw [if_neg ?hneg]
    case hneg =>
      rintro ⟨hm, he⟩
      rcases hcase with h | h
      · exact h he
      · rw [h] at hm; exact absurd hm (by simp)

/-! ## Claims C3/C4/C5 — pipeline coordination -/

/-- Entries of the updated cache come from the old cache or are the newly
stored pair. -/
theorem mem_cacheStore {c : Cache} {h : Nat} {v : PipelineResult}
    {e : Nat × PipelineResult} (he : e ∈ cacheStore c h v) : e ∈ c ∨ e = (h, v) := by
  unfold cacheStore at he
  split at he
  · rcases List.mem_map.mp he with ⟨x, hx, hxe⟩
    by_cases hk : x.1 = h
    · right; rw [if_pos hk] at hxe; exact hxe.symm
    · left; rw [if_neg hk] at hxe; exact hxe ▸ hx
  · rcases List.mem_append.mp he with h1 | h1
    · left; exact h1
    · right; simpa using h1

/-- Eviction only removes entries. -/
theorem mem_cacheEvict {c : Cache} {e : Nat × PipelineResult}
    (he : e ∈ cacheEvict c) : e ∈ c := by
  unfold cacheEvict at he
  split at he
  · split at he
    · exact (List.eraseP_sublist c).subset he
    · exact he
  · exact he

/-- C3: every entry the result cache ever holds has `success = true`:
a run whose final result is unsuccessful stores nothing (the store is
guarded by `final_result['success'] and use_cache`), so the cache is
unchanged by a failed run and a later run with the failed image's hash
finds no entry from it. -/
theorem C3_cache_only_successful_results
    (cache : Cache) (useCache : Bool) (language documentType : String)
    (hashImage : Except String Nat) (runOcr : Except String OCRResult)
    (hinv : ∀ e ∈ cache, e.2.success = true) :
    (∀ e ∈ (processImage cache useCache language documentType hashImage runOcr).2,
        e.2.success = true) ∧
    ((processImage cache useCache language documentType hashImage runOcr).1.success = false →
      (processImage cache useCache language documentType hashImage runOcr).2 = cache) := by
  cases hashImage with
  | error e =>
    rw [processImage_hash_error]
    exact ⟨hinv, fun _ => rfl⟩
  | ok h =>
    cases hlk : (if useCache then cacheLookup cache h else none) with
    | some entry =>
      rw [processImage_cache_hit cache useCache language documentType h entry runOcr hlk]
      exact ⟨hinv, fun _ => rfl⟩
    | none =>
      cases runOcr with
      | error e =>
        rw [processImage_ocr_error cache useCache language documentType h e hlk]
        exact ⟨hinv, fun _ => rfl⟩
      | ok ocr =>
        rw [processImage_full_run cache useCache language documentType h ocr hlk,
          processImageFull_snd]
        by_cases hc :
            ((processImageFull cache useCache language documentType h ocr).1.success
              && useCache) = true
        · rw [if_pos hc]
          constructor
          · intro e he
            rcases mem_cacheStore (mem_cacheEvict he) with h1 | h1
            · exact hinv e h1
            · rw [h1]
              exact ((Bool.and_eq_true _ _).mp hc).1
          · intro hfalse
            exact absurd ((Bool.and_eq_true _ _).mp hc).1
              (fun htrue => by rw [htrue] at hfalse; exact Bool.noConfusion hfalse)
        · rw [if_neg hc]
          exact ⟨hinv, fun _ => rfl⟩

/-- Witness for `C3_cache_only_successful_results`: a failed run (the
orchestrator raised) on an empty cache stores nothing. -/
theorem C3_witness :
    (∀ e ∈ (processImage [] true "es" "general" (.ok 5) (.error "fallo")).2,
        e.2.success = true) ∧
    ((processImage [] true "es" "general" (.ok 5) (.error "fallo")).1.success = false →
      (processImage [] true "es" "general" (.ok 5) (.error "fallo")).2 = []) :=
  C3_cache_only_successful_results [] true "es" "general" (.ok 5) (.error "fallo")
    (by intro e he; cases he)

/-- C4: the run boundary of `process_image` catches every exception of the
body and returns the failure record (success=false, empty text, confidence
0, the exception's message) with the cache untouched; exceptions of the
hashing stage, and of the preprocessing/orchestration stage on a
non-cached run, are exactly such body exceptions. -/
theorem C4_run_boundary_catches_all
    (cache : Cache) (useCache : Bool) (language documentType : String)
    (hashImage : Except String Nat) (runOcr : Except String OCRResult) :
    (∀ e, processImageBody cache useCache language documentType hashImage runOcr = .error e →
      processImage cache useCache language documentType hashImage runOcr
        = (failureResult e, cache)) ∧
    (∀ e, hashImage = .error e →
      processImageBody cache useCache language documentType hashImage runOcr = .error e) ∧
    (∀ h e, hashImage = .ok h → (if useCache then cacheLookup cache h else none) = none →
      runOcr = .error e →
      processImageBody cache useCache language documentType hashImage runOcr = .error e) := by
  refine ⟨?_, ?_, ?_⟩
  · intro e hbody
    unfold processImage
    rw [hbody]
  · intro e he
    subst he
    rfl
  · intro h e hh hmiss he
    subst hh
    subst he
    unfold processImageBody
    simp only [bind, Except.bind]
    rw [hmiss]

/-- Witness for `C4_run_boundary_catches_all`: a hashing-stage exception on
an empty cache yields the failure record. -/
theorem C4_witness :
    processImage [] true "es" "general" (.error "explosion")
        (.ok { success := true, text := "hola", confidence := 80, provider := "p"
               language := "es", errorMessage := none })
      = (failureResult "explosion", []) :=
  (C4_run_boundary_catches_all [] true "es" "general" (.error "explosion")
      (.ok { success := true, text := "hola", confidence := 80, provider := "p"
             language := "es", errorMessage := none })).1 "explosion"
    ((C4_run_boundary_catches_all [] true "es" "general" (.error "explosion")
      (.ok { success := true, text := "hola", confidence := 80, provider := "p"
             language := "es", errorMessage := none })).2.1 "explosion" rfl)

/-- C5: on a non-cached run the final confidence is the blend
`0.7 * ocr confidence + 0.3 * postprocess confidence`, and the final
success flag is true exactly when the orchestrator succeeded and the
postprocessed text is non-empty after stripping. -/
theorem C5_blend_and_success
    (cache : Cache) (useCache : Bool) (language documentType : String)
    (h : Nat) (ocr : OCRResult)
    (hmiss : (if useCache then cacheLookup cache h else none) = none) :
    ((processImage cache useCache language documentType (.ok h) (.ok ocr)).1.confidence
        = ocr.confidence * (7/10)
          + (processAdvanced ocr.text language documentType).confidenceScore * (3/10)) ∧
    ((processImage cache useCache language documentType (.ok h) (.ok ocr)).1.success = true
      ↔ (ocr.success = true ∧
          pyStrip (processAdvanced ocr.text language documentType).text.toList ≠ [])) := by
  rw [processImage_full_run cache useCache language documentType h ocr hmiss]
  constructor
  · rfl
  · show (ocr.success && !(pyStrip (processAdvanced ocr.text language documentType).text.toList).isEmpty) = true ↔ _
    simp [List.isEmpty_iff]

/-- Witness for `C5_blend_and_success` on an empty cache. -/
theorem C5_witness :
    ((processImage [] true "es" "general" (.ok 5)
        (.ok { success := true, text := "hola", confidence := 80, provider := "p"
               language := "es", errorMessage := none })).1.confidence
      = (80 : ℚ) * (7/10)
        + (processAdvanced "hola" "es" "general").confidenceScore * (3/10)) ∧
    ((processImage [] true "es" "general" (.ok 5)
        (.ok { success := true, text := "hola", confidence := 80, provider := "p"
               language := "es", errorMessage := none })).1.success = true
      ↔ (true = true ∧ pyStrip (processAdvanced "hola" "es" "general").text.toList ≠ [])) :=
  C5_blend_and_success [] true "es" "general" 5
    { success := true, text := "hola", confidence := 80, provider := "p"
      language := "es", errorMessage := none } rfl

/-- C9 api oracle for the witness: engine 2 reports an internal server
error, engine 3 parses successfully. -/
def apiEngine2Down : Nat → ApiResp := fun e =>
  if e = 2 then .errored "Internal Server Error 500" else .parsed "texto" 75

/-- Witness for `C9_amended_retry_only_engine2`: with engine 2 failing on
an internal server error, the call equals a one-shot engine-3 call. -/
theorem C9_amended_witness :
    callOcrSpaceApi apiEngine2Down 2 = callOcrSpaceApi apiEngine2Down 3 :=
  (C9_amended_retry_only_engine2 apiEngine2Down 2 "Internal Server Error 500" rfl).1
    rfl (by decide)

/-! ## Claim C6 — cache bound and eviction -/

/-- `cacheStore` length: an update keeps the length, an insert adds one. -/
theorem cacheStore_length (c : Cache) (h : Nat) (v : PipelineResult) :
    (cacheStore c h v).length
      = if c.any (fun e => e.1 = h) then c.length else c.length + 1 := by
  unfold cacheStore
  split
  · simp
  · simp

/-- After the post-insertion trim the cache has at most 100 entries,
provided it had at most 101 entries when the trim ran. -/
theorem cacheEvict_length_le (c : Cache) (hc : c.length ≤ 101) :
    (cacheEvict c).length ≤ 100 := by
  unfold cacheEvict
  split
  · rename_i hgt
    cases hk : (c.map Prod.fst).min? with
    | none =>
      rw [List.min?_eq_none_iff] at hk
      have hnil : c = [] := by simpa using hk
      rw [hnil] at hgt
      simp at hgt
    | some k =>
      have hkmem : k ∈ c.map Prod.fst := List.min?_mem min_choice hk
      rcases List.mem_map.mp hkmem with ⟨e, hec, hek⟩
      have herase : (List.eraseP (fun e => decide (e.1 = k)) c).length = c.length - 1 :=
        List.length_eraseP_of_mem hec (by simp [hek])
      simp only [herase]
      omega
  · rename_i hle
    omega

/-- With pairwise-distinct keys, the key the trim selected is actually
gone afterwards. -/
theorem evicted_key_gone (c : Cache) (k : Nat)
    (hnd : (c.map Prod.fst).Nodup) (hk : k ∈ c.map Prod.fst) :
    k ∉ (List.eraseP (fun e => decide (e.1 = k)) c).map Prod.fst := by
  induction c with
  | nil => simp
  | cons e rest ih =>
    simp only [List.map_cons, List.nodup_cons] at hnd
    rw [List.map_cons] at hk
    by_cases he : e.1 = k
    · rw [List.eraseP_cons_of_pos (by simp [he])]
      rw [← he]
      exact hnd.1
    · rw [List.eraseP_cons_of_neg (by simp [he])]
      simp only [List.map_cons, List.mem_cons]
      rintro (hk1 | hk2)
      · exact he hk1.symm
      · rcases List.mem_cons.mp hk with h1 | h1
        · exact he h1.symm
        · exact ih hnd.2 h1 hk2

/-- C6 amended: the cache is bounded at 100 entries, but the evicted entry
is the one with the MINIMUM key (the lexicographically smallest hash), not
the oldest-inserted one, and it is removed AFTER the new entry is
inserted: a run starting from a cache of at most 100 entries ends with at
most 100 entries, and on an overflowing insert (full cache, fresh key,
distinct keys) the minimum key of the post-insertion cache is gone from
the final cache. -/
theorem C6_amended_bound_and_min_eviction
    (cache : Cache) (useCache : Bool) (language documentType : String)
    (hashImage : Except String Nat) (runOcr : Except String OCRResult)
    (hlen : cache.length ≤ 100) :
    (processImage cache useCache language documentType hashImage runOcr).2.length ≤ 100 ∧
    (∀ h v, (cache.map Prod.fst).Nodup → h ∉ cache.map Prod.fst →
      ∀ k, ((cacheStore cache h v).map Prod.fst).min? = some k →
        (cacheEvict (cacheStore cache h v)).length ≤ 100 ∧
        (cache.length = 100 → k ∉ (cacheEvict (cacheStore cache h v)).map Prod.fst)) := by
  constructor
  · cases hashImage with
    | error e => rw [processImage_hash_error]; exact hlen
    | ok h =>
      cases hlk : (if useCache then cacheLookup cache h else none) with
      | some entry =>
        rw [processImage_cache_hit cache useCache language documentType h entry runOcr hlk]
        exact hlen
      | none =>
        cases runOcr with
        | error e =>
          rw [processImage_ocr_error cache useCache language documentType h e hlk]
          exact hlen
        | ok ocr =>
          rw [processImage_full_run cache useCache language documentType h ocr hlk,
            processImageFull_snd]
          split
          · apply cacheEvict_length_le
            rw [cacheStore_length]
            split <;> omega
          · exact hlen
  · intro h v hnd hfresh k hmin
    have hany : ¬ (cache.any (fun e => e.1 = h) = true) := by
      rw [List.any_eq_true]
      rintro ⟨e, hec, hek⟩
      exact hfresh (List.mem_map.mpr ⟨e, hec, by simpa using hek⟩)
    have hstlen : (cacheStore cache h v).length = cache.length + 1 := by
      rw [cacheStore_length, if_neg hany]
    constructor
    · exact cacheEvict_length_le _ (by omega)
    · intro hfull
      have hknd : ((cacheStore cache h v).map Prod.fst).Nodup := by
        unfold cacheStore
        rw [if_neg hany]
        simp only [List.map_append, List.map_cons, List.map_nil]
        refine List.Nodup.append hnd (List.nodup_singleton h) ?_
        intro a ha hb
        rw [List.mem_singleton] at hb
        exact hfresh (hb ▸ ha)
      have hkmem : k ∈ (cacheStore cache h v).map Prod.fst := List.min?_mem min_choice hmin
      unfold cacheEvict
      rw [if_pos (by omega), hmin]
      exact evicted_key_gone _ k hknd hkmem

/-- A stored successful entry for the C6 cache scenario. -/
def okEntry : PipelineResult :=
  { success := true, text := "hola", confidence := 80, cached := false
    imageHash := none, errorMessage := none }

/-- A 100-entry cache whose OLDEST-inserted entry (the head of the
insertion-ordered list) has key 1000, while the minimum key is 1. -/
def c100 : Cache :=
  (1000, okEntry) :: (List.range 99).map fun i => (i + 1, okEntry)

/-- The orchestrator result driving the C6 insertion. -/
def ocrHola : OCRResult :=
  { success := true, text := "hola", confidence := 80, provider := "OCR.Space"
    language := "es", errorMessage := none }

set_option maxRecDepth 10000 in
/-- C6 counterexample: on the full cache `c100`, a successful run with the
fresh hash 500 inserts first and then evicts the entry with the MINIMUM
key 1 — the oldest-inserted key 1000 (the head of the insertion order)
survives, contradicting the claim that the oldest-inserted entry is
removed before the new entry is inserted. -/
theorem C6_cex_min_key_not_oldest_evicted :
    (((processImage c100 true "es" "general" (.ok 500) (.ok ocrHola)).2.map
        Prod.fst).contains 1000 = true) ∧
    (((processImage c100 true "es" "general" (.ok 500) (.ok ocrHola)).2.map
        Prod.fst).contains 1 = false) ∧
    (((processImage c100 true "es" "general" (.ok 500) (.ok ocrHola)).2.map
        Prod.fst).contains 500 = true) ∧
    ((processImage c100 true "es" "general" (.ok 500) (.ok ocrHola)).2.length = 100) ∧
    ((processImage c100 true "es" "general" (.ok 500) (.ok ocrHola)).1.success = true) ∧
    ((c100.map Prod.fst).head? = some 1000) ∧
    ((c100.map Prod.fst).contains 1 = true) ∧
    (c100.length = 100) := by
  refine ⟨by decide, by decide, by decide, by decide, by decide, by decide, by decide, by decide⟩

set_option maxRecDepth 10000 in
/-- Witness for `C6_amended_bound_and_min_eviction` at the concrete full
cache `c100`: the run's cache stays within the bound and the overflowing
insert of key 500 evicts the minimum key 1. -/
theorem C6_amended_witness :
    ((processImage c100 true "es" "general" (.ok 500) (.ok ocrHola)).2.length ≤ 100) ∧
    (1 ∉ (cacheEvict (cacheStore c100 500 okEntry)).map Prod.fst) := by
  have H := C6_amended_bound_and_min_eviction c100 true "es" "general"
    (.ok 500) (.ok ocrHola) (by decide)
  exact ⟨H.1, (H.2 500 okEntry (by decide) (by decide) 1 (by decide)).2 (by decide)⟩

/-! ## Claim C10 — single-line output

The statements below track the invariant "the text contains no newline"
through every pass of `process_advanced` that runs from the whitespace
collapse (`\s+ → ' '`) onward; the passes before it need no analysis. -/

/-- A character of a class that excludes the newline is not a newline. -/
theorem ne_nl_of_class {p : Char → Bool} {x : Char} (hp : p '\n' = false)
    (hx : p x = true) : x ≠ '\n' := by
  intro h
  subst h
  rw [hp] at hx
  exact Bool.noConfusion hx

/-- Generic preservation: if every match only produces newline-free
replacement text (whenever the examined suffix is newline-free), one
`scanRepl` pass preserves newline-freeness. -/
theorem scanReplF_noNL {f : List Char → Option (List Char × Nat)}
    (hf : ∀ l rep n, f l = some (rep, n) → '\n' ∉ l → '\n' ∉ rep) :
    ∀ (fuel : Nat) (l : List Char), '\n' ∉ l → '\n' ∉ scanReplF f fuel l := by
  intro fuel
  induction fuel with
  | zero => intro l hl; exact hl
  | succ n ih =>
    intro l hl
    match l with
    | [] => simp [scanReplF]
    | c :: cs =>
      have hcs : '\n' ∉ cs := fun hx => hl (List.mem_cons_of_mem _ hx)
      cases hm : f (c :: cs) with
      | none =>
        simp only [scanReplF, hm]
        intro hmem
        rcases List.mem_cons.mp hmem with h1 | h1
        · exact hl (h1 ▸ List.mem_cons_self c cs)
        · exact ih cs hcs h1
      | some rn =>
        obtain ⟨rep, k⟩ := rn
        simp only [scanReplF, hm]
        intro hmem
        rcases List.mem_append.mp hmem with h1 | h1
        · exact hf (c :: cs) rep k hm hl h1
        · exact ih _ (fun hx => hcs (List.drop_subset _ _ hx)) h1

/-- `scanRepl` version of `scanReplF_noNL`. -/
theorem scanRepl_noNL {f : List Char → Option (List Char × Nat)}
    (hf : ∀ l rep n, f l = some (rep, n) → '\n' ∉ l → '\n' ∉ rep)
    (l : List Char) (hl : '\n' ∉ l) : '\n' ∉ scanRepl f l :=
  scanReplF_noNL hf l.length l hl

/-- The whitespace collapse leaves no newline at all: every character of
its output is a space or a non-whitespace character of the input. -/
theorem scanReplF_wsCollapse_noNL :
    ∀ (fuel : Nat) (l : List Char), l.length ≤ fuel →
      '\n' ∉ scanReplF mWsCollapse fuel l := by
  intro fuel
  induction fuel with
  | zero =>
    intro l hl
    have hnil : l = [] := List.eq_nil_of_length_eq_zero (Nat.le_zero.mp hl)
    subst hnil
    simp [scanReplF]
  | succ n ih =>
    intro l hl
    match l with
    | [] => simp [scanReplF]
    | c :: cs =>
      have hlen : cs.length ≤ n := by simpa using hl
      by_cases hw : isPyWs c = true
      · have hm : mWsCollapse (c :: cs)
            = some ([' '], ((c :: cs).takeWhile isPyWs).length) := by
          simp [mWsCollapse, hw]
        simp only [scanReplF, hm]
        intro hmem
        rcases List.mem_append.mp hmem with h1 | h1
        · simp at h1
        · refine absurd h1 (ih _ ?_)
          have := List.length_drop (((c :: cs).takeWhile isPyWs).length - 1) cs
          omega
      · have hm : mWsCollapse (c :: cs) = none := by
          simp [mWsCollapse, hw]
        simp only [scanReplF, hm]
        intro hmem
        rcases List.mem_cons.mp hmem with h1 | h1
        · exact hw (by rw [← h1]; decide)
        · exact absurd h1 (ih cs hlen)

/-- `scanRepl` version of `scanReplF_wsCollapse_noNL`. -/
theorem scanRepl_wsCollapse_noNL (l : List Char) :
    '\n' ∉ scanRepl mWsCollapse l :=
  scanReplF_wsCollapse_noNL l.length l le_rfl

/-- The blank-line pattern can only match a text that still has a newline,
so on newline-free text it never fires (vacuous side condition). -/
theorem mBlankLines_noNL :
    ∀ l rep n, mBlankLines l = some (rep, n) → '\n' ∉ l → '\n' ∉ rep := by
  intro l rep n hm hl
  exfalso
  match l with
  | [] => exact Option.noConfusion hm
  | c :: cs =>
    by_cases hc : c = '\n'
    · exact hl (hc ▸ List.mem_cons_self c cs)
    · simp only [mBlankLines, if_neg hc] at hm
      exact Option.noConfusion hm

/-- Token rewriting preserves newline-freeness as long as `g` does. -/
theorem mapTokensF_noNL {g : List Char → List Char}
    (hg : ∀ t, '\n' ∉ t → '\n' ∉ g t) :
    ∀ (fuel : Nat) (l : List Char), '\n' ∉ l → '\n' ∉ mapTokensF g fuel l := by
  intro fuel
  induction fuel with
  | zero => intro l hl; exact hl
  | succ n ih =>
    intro l hl
    match l with
    | [] => simp [mapTokensF]
    | c :: cs =>
      have hcs : '\n' ∉ cs := fun hx => hl (List.mem_cons_of_mem _ hx)
      by_cases hw : isWordChar c = true
      · simp only [mapTokensF, hw, if_pos]
        intro hmem
        rcases List.mem_append.mp hmem with h1 | h1
        · refine absurd h1 (hg _ ?_)
          intro hx
          rcases List.mem_cons.mp hx with h2 | h2
          · exact hl (h2 ▸ List.mem_cons_self c cs)
          · exact hcs ((List.takeWhile_sublist _).subset h2)
        · exact absurd h1
            (ih _ fun hx => hcs ((List.dropWhile_sublist _).subset hx))
      · simp only [mapTokensF, hw]
        intro hmem
        rcases List.mem_cons.mp hmem with h1 | h1
        · exact hl (h1 ▸ List.mem_cons_self c cs)
        · exact absurd h1 (ih cs hcs)

/-- `mapTokens` version of `mapTokensF_noNL`. -/
theorem mapTokens_noNL {g : List Char → List Char}
    (hg : ∀ t, '\n' ∉ t → '\n' ∉ g t)
    (l : List Char) (hl : '\n' ∉ l) : '\n' ∉ mapTokens g l :=
  mapTokensF_noNL hg l.length l hl

/-- `Char.ofNat` evaluates to its argument on valid code points. -/
theorem char_toNat_ofNat_valid (n : Nat) (h : n.isValidChar) :
    (Char.ofNat n).toNat = n := by
  simp [Char.ofNat, Char.ofNatAux, h, Char.toNat, UInt32.toNat, BitVec.toNat_ofNatLt]

/-- Lowercasing never produces a newline from a non-newline. -/
theorem pyLower_ne_newline {c : Char} (hc : c ≠ '\n') : pyLower c ≠ '\n' := by
  unfold pyLower
  split
  · rename_i h
    simp only [Bool.and_eq_true, decide_eq_true_eq] at h
    have h1 : 65 ≤ c.toNat := h.1
    have h2 : c.toNat ≤ 90 := h.2
    have hv : (c.toNat + 32).isValidChar := Or.inl (by omega)
    intro heq
    have hn := char_toNat_ofNat_valid (c.toNat + 32) hv
    rw [heq] at hn
    have h10 : ('\n').toNat = 10 := rfl
    omega
  · repeat' split
    all_goals first | decide | exact hc

/-- Side condition for the space-before-punctuation pass: its replacement
is the punctuation character itself. -/
theorem mWsPunct_noNL :
    ∀ l rep n, mWsPunct l = some (rep, n) → '\n' ∉ l → '\n' ∉ rep := by
  intro l rep n hm _
  match l with
  | [] => exact Option.noConfusion hm
  | c :: cs =>
    simp only [mWsPunct] at hm
    split at hm
    · split at hm
      · rename_i p tail heq
        split at hm
        · rename_i hp
          obtain ⟨hrep, -⟩ := Prod.mk.injEq .. ▸ Option.some.inj hm
          rw [← hrep]
          intro hx
          rw [← List.mem_singleton.mp hx] at hp
          exact absurd hp (by decide)
        · exact Option.noConfusion hm
      · exact Option.noConfusion hm
    · exact Option.noConfusion hm

/-- Side condition for the bracket-spacing passes (the replacement is the
bracket itself). -/
theorem mOpenWs_noNL (br : Char) (hbr : br ≠ '\n') :
    ∀ l rep n, mOpenWs br l = some (rep, n) → '\n' ∉ l → '\n' ∉ rep := by
  intro l rep n hm _
  match l with
  | [] => exact Option.noConfusion hm
  | c :: cs =>
    simp only [mOpenWs] at hm
    split at hm
    · split at hm
      · exact Option.noConfusion hm
      · obtain ⟨hrep, -⟩ := Prod.mk.injEq .. ▸ Option.some.inj hm
        rw [← hrep]
        intro hx
        exact hbr (List.mem_singleton.mp hx).symm
    · exact Option.noConfusion hm

/-- Side condition for the whitespace-before-closing-bracket passes. -/
theorem mWsClose_noNL (br : Char) (hbr : br ≠ '\n') :
    ∀ l rep n, mWsClose br l = some (rep, n) → '\n' ∉ l → '\n' ∉ rep := by
  intro l rep n hm _
  match l with
  | [] => exact Option.noConfusion hm
  | c :: cs =>
    simp only [mWsClose] at hm
    split at hm
    · split at hm
      · split at hm
        · obtain ⟨hrep, -⟩ := Prod.mk.injEq .. ▸ Option.some.inj hm
          rw [← hrep]
          intro hx
          exact hbr (List.mem_singleton.mp hx).symm
        · exact Option.noConfusion hm
      · exact Option.noConfusion hm
    · exact Option.noConfusion hm

/-- Side condition for a literal substitution with a fixed replacement. -/
theorem mLiteral_noNL (pat rep0 : List Char) (hrep : '\n' ∉ rep0) :
    ∀ l rep n, mLiteral pat rep0 l = some (rep, n) → '\n' ∉ l → '\n' ∉ rep := by
  intro l rep n hm _
  unfold mLiteral at hm
  split at hm
  · obtain ⟨hrep', -⟩ := Prod.mk.injEq .. ▸ Option.some.inj hm
    rw [← hrep']
    exact hrep
  · exact Option.noConfusion hm

/-- Character substitution with a non-newline target preserves
newline-freeness. -/
theorem replChar_noNL {a b : Char} (hb : b ≠ '\n') (l : List Char)
    (hl : '\n' ∉ l) : '\n' ∉ replChar a b l := by
  intro hmem
  unfold replChar at hmem
  rcases List.mem_map.mp hmem with ⟨x, hx, hxe⟩
  by_cases hxa : x = a
  · rw [if_pos hxa] at hxe; exact hb hxe
  · rw [if_neg hxa] at hxe; exact hl (hxe ▸ hx)

/-- Side condition for the vowel–n–vowel rule: the replacement keeps the
two vowels and inserts `ñ`. -/
theorem mVowelN_noNL :
    ∀ l rep n, mVowelN l = some (rep, n) → '\n' ∉ l → '\n' ∉ rep := by
  intro l rep n hm hl
  match l with
  | [] => exact Option.noConfusion hm
  | [c] => exact Option.noConfusion hm
  | [c, d] => exact Option.noConfusion hm
  | v1 :: c :: v2 :: rest =>
    simp only [mVowelN] at hm
    split at hm
    · obtain ⟨hrep, -⟩ := Prod.mk.injEq .. ▸ Option.some.inj hm
      rw [← hrep]
      intro hx
      simp only [List.mem_cons, List.not_mem_nil, or_false] at hx
      rcases hx with h | h | h
      · exact hl (h ▸ List.mem_cons_self _ _)
      · exact (by decide : ('\n' : Char) ≠ 'ñ') h
      · refine hl ?_
        rw [h]
        simp
    · exact Option.noConfusion hm

/-- Whole-word substitution with a newline-free replacement. -/
theorem fixWordCi_noNL {w rep : List Char} (hrep : '\n' ∉ rep) :
    ∀ t, '\n' ∉ t → '\n' ∉ fixWordCi w rep t := by
  intro t ht
  unfold fixWordCi
  split
  · exact hrep
  · exact ht

/-- Whole-word substitution (two spellings) with a newline-free
replacement. -/
theorem fixWordCi2_noNL {w1 w2 rep : List Char} (hrep : '\n' ∉ rep) :
    ∀ t, '\n' ∉ t → '\n' ∉ fixWordCi2 w1 w2 rep t := by
  intro t ht
  unfold fixWordCi2
  split
  · exact hrep
  · exact ht

/-- A confusion correction replaces one character of the token by the
(non-newline) substitute. -/
theorem fixConfusion_noNL {cls : Char → Bool} {d X : Char} (hX : X ≠ '\n') :
    ∀ t, '\n' ∉ t → '\n' ∉ fixConfusion cls d X t := by
  intro t ht
  unfold fixConfusion
  dsimp only
  split
  · rename_i c suf heq
    split
    · intro hmem
      rcases List.mem_append.mp hmem with h1 | h1
      · exact ht ((List.takeWhile_sublist _).subset h1)
      · rcases List.mem_cons.mp h1 with h2 | h2
        · exact hX h2.symm
        · exact ht (List.drop_subset _ _ (heq ▸ List.mem_cons_of_mem c h2))
    · exact ht
  · exact ht

/-- The digit-in-letters correction replaces one character by a letter. -/
theorem fixDigitInLetters_noNL {d X : Char} (hX : X ≠ '\n') :
    ∀ t, '\n' ∉ t → '\n' ∉ fixDigitInLetters d X t :=
  fixConfusion_noNL hX

/-- The letter-in-digits correction replaces one character by a digit. -/
theorem fixLetterInDigits_noNL {X d : Char} (hd : d ≠ '\n') :
    ∀ t, '\n' ∉ t → '\n' ∉ fixLetterInDigits X d t :=
  fixConfusion_noNL hd

/-- Side condition for the currency pattern: the replacement is digits of
the input plus separator, space, and currency sign. -/
theorem mCurrency_noNL (cur sepOut : Char) (hcur : cur ≠ '\n') (hsep : sepOut ≠ '\n') :
    ∀ l rep n, mCurrency cur sepOut l = some (rep, n) → '\n' ∉ l → '\n' ∉ rep := by
  intro l rep n hm hl
  unfold mCurrency at hm
  dsimp only at hm
  repeat' split at hm
  all_goals try exact Option.noConfusion hm
  rename_i hemp x1 c1 hsepc rest d1 d2 rest2 heq1 hdig x2 c2 suf heq2 hc
  obtain ⟨hrep, -⟩ := Prod.mk.injEq .. ▸ Option.some.inj hm
  rw [← hrep]
  intro hx
  rcases List.mem_append.mp hx with h1 | h1
  · exact hl ((List.takeWhile_sublist _).subset h1)
  · simp only [List.mem_cons, List.not_mem_nil, or_false] at h1
    rcases h1 with h | h | h | h | h
    · exact hsep h.symm
    · exact ne_nl_of_class (by decide) ((Bool.and_eq_true _ _).mp hdig).1 h.symm
    · exact ne_nl_of_class (by decide) ((Bool.and_eq_true _ _).mp hdig).2 h.symm
    · exact (by decide : ('\n' : Char) ≠ ' ') h
    · exact hcur h.symm

/-- Side condition for the phone pattern: the replacement is nine digits
of the input and two spaces. -/
theorem mPhone_noNL :
    ∀ l rep n, mPhone l = some (rep, n) → '\n' ∉ l → '\n' ∉ rep := by
  intro l rep n hm hl
  unfold mPhone at hm
  dsimp only at hm
  repeat' split at hm
  all_goals try exact Option.noConfusion hm
  rename_i a1 a2 a3 rest hda x1 b1 b2 b3 rest2 heq1 hdb x2 c1 c2 c3 tail heq2 hdc
  obtain ⟨hrep, -⟩ := Prod.mk.injEq .. ▸ Option.some.inj hm
  rw [← hrep]
  intro hx
  simp only [List.mem_cons, List.not_mem_nil, or_false] at hx
  have hsp : ('\n' : Char) ≠ ' ' := by decide
  rcases hx with h | h | h | h | h | h | h | h | h | h | h
  · exact ne_nl_of_class (by decide)
      ((Bool.and_eq_true _ _).mp ((Bool.and_eq_true _ _).mp hda).1).1 h.symm
  · exact ne_nl_of_class (by decide)
      ((Bool.and_eq_true _ _).mp ((Bool.and_eq_true _ _).mp hda).1).2 h.symm
  · exact ne_nl_of_class (by decide) ((Bool.and_eq_true _ _).mp hda).2 h.symm
  · exact hsp h
  · exact ne_nl_of_class (by decide)
      ((Bool.and_eq_true _ _).mp ((Bool.and_eq_true _ _).mp hdb).1).1 h.symm
  · exact ne_nl_of_class (by decide)
      ((Bool.and_eq_true _ _).mp ((Bool.and_eq_true _ _).mp hdb).1).2 h.symm
  · exact ne_nl_of_class (by decide) ((Bool.and_eq_true _ _).mp hdb).2 h.symm
  · exact hsp h
  · exact ne_nl_of_class (by decide)
      ((Bool.and_eq_true _ _).mp ((Bool.and_eq_true _ _).mp hdc).1).1 h.symm
  · exact ne_nl_of_class (by decide)
      ((Bool.and_eq_true _ _).mp ((Bool.and_eq_true _ _).mp hdc).1).2 h.symm
  · exact ne_nl_of_class (by decide) ((Bool.and_eq_true _ _).mp hdc).2 h.symm

/-- Characters of a matched email domain are domain characters of the
scanned list or literal dots. -/
theorem emailDomainAux_mem :
    ∀ (ds m : List Char), emailDomainAux ds = some m → ∀ x ∈ m, x ∈ ds ∨ x = '.' := by
  intro ds
  induction ds with
  | nil => intro m hm; exact Option.noConfusion hm
  | cons c cs ih =>
    intro m hm x hx
    unfold emailDomainAux at hm
    cases ha : emailDomainAux cs with
    | some mm =>
      simp only [ha] at hm
      obtain rfl : c :: mm = m := Option.some.inj hm
      rcases List.mem_cons.mp hx with h1 | h1
      · left; exact h1 ▸ List.mem_cons_self c cs
      · rcases ih mm ha x h1 with h2 | h2
        · left; exact List.mem_cons_of_mem c h2
        · right; exact h2
    | none =>
      simp only [ha] at hm
      split at hm
      · obtain rfl : '.' :: cs.takeWhile isAsciiLetter = m := Option.some.inj hm
        rcases List.mem_cons.mp hx with h1 | h1
        · right; exact h1
        · left; exact List.mem_cons_of_mem c ((List.takeWhile_sublist _).subset h1)
      · exact Option.noConfusion hm

/-- Side condition for the email pattern: the replacement is the lowercase
of characters drawn from the local part, `@`, and the domain part — none
of which can be a newline. -/
theorem mEmail_noNL :
    ∀ l rep n, mEmail l = some (rep, n) → '\n' ∉ l → '\n' ∉ rep := by
  intro l rep n hm hl
  unfold mEmail at hm
  dsimp only at hm
  repeat' split at hm
  all_goals try exact Option.noConfusion hm
  rename_i hlp g1 a rest heqa hat g2 d0 ds heqdom g3 m heqaux
  obtain ⟨hrep, -⟩ := Prod.mk.injEq .. ▸ Option.some.inj hm
  rw [← hrep]
  intro hx
  rcases List.mem_map.mp hx with ⟨x, hxmem, hxl⟩
  have hxnl : x ≠ '\n' := by
    rcases List.mem_append.mp hxmem with h1 | h1
    · exact ne_nl_of_class (by decide) (List.mem_takeWhile_imp h1)
    · rcases List.mem_cons.mp h1 with h2 | h2
      · rw [h2]; decide
      · rcases List.mem_cons.mp h2 with h3 | h3
        · rw [h3]
          exact ne_nl_of_class (by decide)
            (List.mem_takeWhile_imp (heqdom ▸ List.mem_cons_self d0 ds))
        · rcases emailDomainAux_mem ds m heqaux x h3 with h4 | h4
          · exact ne_nl_of_class (by decide)
              (List.mem_takeWhile_imp
                (heqdom ▸ List.mem_cons_of_mem d0 h4))
          · rw [h4]; decide
  exact pyLower_ne_newline hxnl hxl

/-- The text component of one counted correction pass. -/
theorem countStep_fst (f : List Char → List Char) (acc : List Char × Nat) :
    (countStep f acc).1 = f acc.1 := rfl

/-- Language corrections preserve newline-freeness. -/
theorem applyLanguageCorrections_noNL (l : List Char) (language : String)
    (hl : '\n' ∉ l) : '\n' ∉ (applyLanguageCorrections l language).1 := by
  unfold applyLanguageCorrections
  split
  · simp only [countStep_fst]
    refine mapTokens_noNL (fixWordCi_noNL (by decide)) _ ?_
    refine mapTokens_noNL (fixWordCi_noNL (by decide)) _ ?_
    refine mapTokens_noNL (fixWordCi_noNL (by decide)) _ ?_
    refine mapTokens_noNL (fixWordCi_noNL (by decide)) _ ?_
    refine mapTokens_noNL (fixWordCi_noNL (by decide)) _ ?_
    refine scanRepl_noNL mVowelN_noNL _ ?_
    refine mapTokens_noNL (fixWordCi_noNL (by decide)) _ ?_
    refine mapTokens_noNL (fixWordCi_noNL (by decide)) _ ?_
    exact hl
  · split
    · simp only [countStep_fst]
      refine mapTokens_noNL (fixWordCi_noNL (by decide)) _ ?_
      refine mapTokens_noNL (fixWordCi_noNL (by decide)) _ ?_
      refine mapTokens_noNL (fixWordCi_noNL (by decide)) _ ?_
      refine mapTokens_noNL (fixWordCi_noNL (by decide)) _ ?_
      refine mapTokens_noNL (fixWordCi_noNL (by decide)) _ ?_
      refine mapTokens_noNL (fixWordCi_noNL (by decide)) _ ?_
      exact hl
    · exact hl

/-- Document corrections preserve newline-freeness. -/
theorem applyDocumentCorrections_noNL (l : List Char) (documentType : String)
    (hl : '\n' ∉ l) : '\n' ∉ (applyDocumentCorrections l documentType).1 := by
  unfold applyDocumentCorrections
  split
  · simp only [countStep_fst]
    refine scanRepl_noNL (mCurrency_noNL '$' '.' (by decide) (by decide)) _ ?_
    refine scanRepl_noNL (mCurrency_noNL '€' ',' (by decide) (by decide)) _ ?_
    refine mapTokens_noNL (fixWordCi_noNL (by decide)) _ ?_
    refine mapTokens_noNL (fixWordCi_noNL (by decide)) _ ?_
    refine mapTokens_noNL (fixWordCi_noNL (by decide)) _ ?_
    refine mapTokens_noNL (fixWordCi_noNL (by decide)) _ ?_
    refine mapTokens_noNL (fixWordCi_noNL (by decide)) _ ?_
    exact hl
  · split
    · simp only [countStep_fst]
      refine scanRepl_noNL mEmail_noNL _ ?_
      refine scanRepl_noNL mPhone_noNL _ ?_
      refine mapTokens_noNL (fixWordCi_noNL (by decide)) _ ?_
      refine mapTokens_noNL (fixWordCi_noNL (by decide)) _ ?_
      refine mapTokens_noNL (fixWordCi2_noNL (by decide)) _ ?_
      exact hl
    · exact hl

/-- After `_basic_cleanup` the text has no newline: the `\s+ → ' '` pass
removes every whitespace character (newlines included) and the final
blank-line pass cannot reintroduce one. -/
theorem basicCleanup_noNL (l : List Char) : '\n' ∉ basicCleanup l := by
  unfold basicCleanup
  refine scanRepl_noNL mBlankLines_noNL _ ?_
  exact scanRepl_wsCollapse_noNL _

/-- Stripping preserves newline-freeness (it only removes characters). -/
theorem pyStrip_noNL (l : List Char) (hl : '\n' ∉ l) : '\n' ∉ pyStrip l := by
  intro hx
  unfold pyStrip at hx
  rw [List.mem_reverse] at hx
  have h1 := (List.dropWhile_sublist _).subset hx
  rw [List.mem_reverse] at h1
  exact hl ((List.dropWhile_sublist _).subset h1)

/-- The final text of `process_advanced` never contains a newline. -/
theorem processAdvanced_text_noNL (s language documentType : String) :
    '\n' ∉ (processAdvanced s language documentType).text.toList := by
  unfold processAdvanced
  split
  · simp
  · dsimp only
    refine pyStrip_noNL _ ?_
    refine applyDocumentCorrections_noNL _ _ ?_
    refine applyLanguageCorrections_noNL _ _ ?_
    exact basicCleanup_noNL _

/-- `takeWhile` keeps a list all of whose elements satisfy the predicate. -/
theorem takeWhile_eq_self_of_all {p : Char → Bool} :
    ∀ l : List Char, (∀ x ∈ l, p x = true) → l.takeWhile p = l := by
  intro l h
  induction l with
  | nil => rfl
  | cons c cs ih =>
    rw [List.takeWhile_cons_of_pos (h c (List.mem_cons_self c cs))]
    rw [ih fun x hx => h x (List.mem_cons_of_mem c hx)]

/-- A newline-free text is a single line for Python's `split('\n')`. -/
theorem splitNl_of_noNL (l : List Char) (hl : '\n' ∉ l) : splitNl l = [l] := by
  unfold splitNl
  cases l with
  | nil => rfl
  | cons c cs =>
    have hseg : (c :: cs).takeWhile (fun x => !(x = '\n')) = c :: cs := by
      refine takeWhile_eq_self_of_all _ fun x hx => ?_
      simp only [Bool.not_eq_true', decide_eq_false_iff_not]
      exact fun h => hl (h ▸ hx)
    simp only [List.length_cons, splitNlF, hseg]
    rw [← List.length_cons c cs, List.drop_length]

/-- The `lines` metric of a non-empty newline-free text is 1. -/
theorem analyzeQuality_lines_of_noNL (l : List Char) (hl : '\n' ∉ l)
    (hne : l ≠ []) : (analyzeQuality l).lines = 1 := by
  unfold analyzeQuality
  rw [if_neg (by simpa [List.isEmpty_iff] using hne)]
  dsimp only
  rw [splitNl_of_noNL l hl]
  rfl

/-- C10: the whitespace-collapsing correction rewrites every whitespace
run (line breaks included) to a single space, so the text returned by
`process_advanced` contains no newline character for any input, language
and document type, and the `lines` quality metric is 1 whenever the
returned text is non-empty. -/
theorem C10_output_single_line (s language documentType : String) :
    ('\n' ∉ (processAdvanced s language documentType).text.toList) ∧
    ((processAdvanced s language documentType).text ≠ "" →
      (processAdvanced s language documentType).qualityMetrics.lines = 1) := by
  constructor
  · exact processAdvanced_text_noNL s language documentType
  · intro hne
    by_cases hs : s = ""
    · exact absurd (by simp [processAdvanced, hs]) hne
    · have hnoNL : '\n' ∉ (applyDocumentCorrections
          (applyLanguageCorrections (basicCleanup s.toList) language).1 documentType).1 :=
        applyDocumentCorrections_noNL _ _
          (applyLanguageCorrections_noNL _ _ (basicCleanup_noNL _))
      have hspecne : (applyDocumentCorrections
          (applyLanguageCorrections (basicCleanup s.toList) language).1 documentType).1 ≠ [] := by
        intro h
        apply hne
        unfold processAdvanced
        rw [if_neg hs]
        dsimp only
        rw [h]
        rfl
      unfold processAdvanced
      rw [if_neg hs]
      dsimp only
      exact analyzeQuality_lines_of_noNL _ hnoNL hspecne

/-- Witness for `C10_output_single_line` at a concrete input. -/
theorem C10_witness :
    ('\n' ∉ (processAdvanced "hola" "es" "general").text.toList) ∧
    (processAdvanced "hola" "es" "general").qualityMetrics.lines = 1 :=
  ⟨(C10_output_single_line "hola" "es" "general").1,
   (C10_output_single_line "hola" "es" "general").2 (by decide)⟩

/-! ## Claim C8 — confusion-correction scope -/

/-- The correction letter class contains no ASCII digit. -/
theorem letterClass_not_digit {c : Char} (h : letterClass c = true) :
    isDigitCh c = false := by
  unfold letterClass isAsciiLetter at h
  simp only [Bool.or_eq_true, Bool.and_eq_true, decide_eq_true_eq] at h
  cases hdt : isDigitCh c with
  | false => rfl
  | true =>
    exfalso
    unfold isDigitCh at hdt
    simp only [Bool.and_eq_true, decide_eq_true_eq] at hdt
    have h3 : 48 ≤ c.toNat := hdt.1
    have h4 : c.toNat ≤ 57 := hdt.2
    rcases h with (((((((⟨ha, hb⟩ | ⟨ha, hb⟩) | h) | h) | h) | h) | h) | h) | h
    · have h1 : (97 : Nat) ≤ c.toNat := ha
      omega
    · have h1 : (65 : Nat) ≤ c.toNat := ha
      have h2 : c.toNat ≤ 90 := hb
      omega
    all_goals subst h; revert hdt; decide

/-- An ASCII digit is not in the correction letter class. -/
theorem digit_not_letterClass {c : Char} (h : isDigitCh c = true) :
    letterClass c = false := by
  cases hlt : letterClass c with
  | false => rfl
  | true => rw [letterClass_not_digit hlt] at h; exact Bool.noConfusion h

/-- Letters of the correction class are word characters. -/
theorem letterClass_word {c : Char} (h : letterClass c = true) :
    isWordChar c = true := by
  unfold letterClass at h
  unfold isWordChar
  simp only [Bool.or_eq_true] at h ⊢
  tauto

/-- ASCII digits are word characters. -/
theorem digit_word {c : Char} (h : isDigitCh c = true) : isWordChar c = true := by
  unfold isWordChar
  simp only [Bool.or_eq_true]
  tauto

/-- Word characters are not whitespace. -/
theorem word_not_ws {c : Char} (h : isWordChar c = true) : isPyWs c = false := by
  cases hps : isPyWs c with
  | false => rfl
  | true =>
    exfalso
    unfold isPyWs at hps
    simp only [Bool.or_eq_true, decide_eq_true_eq] at hps
    rcases hps with ((((h1 | h1) | h1) | h1) | h1) | h1 <;> subst h1 <;> revert h <;> decide

/-- `takeWhile` over `run ++ stop :: rest` yields exactly the run. -/
theorem takeWhile_append_stop {cls : Char → Bool} :
    ∀ (p : List Char) (d : Char) (q : List Char),
      (∀ c ∈ p, cls c = true) → cls d = false →
      (p ++ d :: q).takeWhile cls = p := by
  intro p
  induction p with
  | nil =>
    intro d q _ hd
    rw [List.nil_append, List.takeWhile_cons_of_neg (by simp [hd])]
  | cons c cs ih =>
    intro d q hp hd
    simp only [List.cons_append]
    rw [List.takeWhile_cons_of_pos (hp c (List.mem_cons_self c cs))]
    rw [ih d q (fun x hx => hp x (List.mem_cons_of_mem c hx)) hd]

/-- A token of the exact shape `cls-run, d, cls-run` is rewritten, the
separator replaced by `X`. -/
theorem fixConfusion_hit (cls : Char → Bool) (d X : Char)
    (p q : List Char) (hp : ∀ c ∈ p, cls c = true) (hq : ∀ c ∈ q, cls c = true)
    (hpne : p ≠ []) (hqne : q ≠ []) (hd : cls d = false) :
    fixConfusion cls d X (p ++ d :: q) = p ++ X :: q := by
  unfold fixConfusion
  dsimp only
  rw [takeWhile_append_stop p d q hp hd, List.drop_left]
  dsimp only
  rw [if_pos]
  simp only [Bool.and_eq_true, decide_eq_true_eq, Bool.not_eq_true']
  refine ⟨⟨⟨trivial, ?_⟩, ?_⟩, ?_⟩
  · simpa [List.isEmpty_iff] using hpne
  · simpa [List.isEmpty_iff] using hqne
  · exact List.all_eq_true.mpr hq

/-- A token all of whose characters are in the class is not rewritten
(there is no separator to replace). -/
theorem fixConfusion_id_all (cls : Char → Bool) (d X : Char)
    (t : List Char) (ht : ∀ c ∈ t, cls c = true) :
    fixConfusion cls d X t = t := by
  unfold fixConfusion
  dsimp only
  rw [takeWhile_eq_self_of_all t ht, List.drop_length]

/-- A token whose first character is outside the class is not rewritten
(the leading `cls+` group cannot match). -/
theorem fixConfusion_id_headno (cls : Char → Bool) (d X : Char)
    (c : Char) (cs : List Char) (hc : cls c = false) :
    fixConfusion cls d X (c :: cs) = c :: cs := by
  unfold fixConfusion
  dsimp only
  rw [List.takeWhile_cons_of_neg (by simp [hc])]
  simp only [List.length_nil, List.drop_zero]
  rw [if_neg]
  simp

/-- A token of shape `cls-run, d, rest` with the wrong separator is not
rewritten. -/
theorem fixConfusion_wrong_sep (cls : Char → Bool) (dPat X : Char)
    (p : List Char) (d : Char) (q : List Char)
    (hp : ∀ c ∈ p, cls c = true) (hd : cls d = false) (hne : d ≠ dPat) :
    fixConfusion cls dPat X (p ++ d :: q) = p ++ d :: q := by
  unfold fixConfusion
  dsimp only
  rw [takeWhile_append_stop p d q hp hd, List.drop_left]
  dsimp only
  rw [if_neg]
  simp [hne]

/-- Characters of a rewritten token come from the token or are the
substitute. -/
theorem fixConfusion_mem (cls : Char → Bool) (d X : Char) {t : List Char}
    {c : Char} (hc : c ∈ fixConfusion cls d X t) : c ∈ t ∨ c = X := by
  unfold fixConfusion at hc
  dsimp only at hc
  split at hc
  · rename_i ch suf heq
    split at hc
    · rcases List.mem_append.mp hc with h1 | h1
      · exact Or.inl ((List.takeWhile_sublist _).subset h1)
      · rcases List.mem_cons.mp h1 with h2 | h2
        · exact Or.inr h2
        · exact Or.inl (List.drop_subset _ _ (heq ▸ List.mem_cons_of_mem ch h2))
    · exact Or.inl hc
  · exact Or.inl hc

/-- A confusion pass never empties a token. -/
theorem fixConfusion_ne_nil (cls : Char → Bool) (d X : Char) {t : List Char}
    (ht : t ≠ []) : fixConfusion cls d X t ≠ [] := by
  unfold fixConfusion
  dsimp only
  split
  · split
    · simp
    · exact ht
  · exact ht

/-- A word character differs from any non-word character. -/
theorem word_ne {c : Char} (h : isWordChar c = true) (a : Char)
    (ha : isWordChar a = false) : ¬(c = a) := by
  intro he
  rw [he] at h
  rw [h] at ha
  exact Bool.noConfusion ha

/-- `dropWhile` keeps a list none of whose elements satisfies the predicate. -/
theorem dropWhile_self_of_none (p : Char → Bool) :
    ∀ l : List Char, (∀ c ∈ l, p c = false) → l.dropWhile p = l := by
  intro l h
  cases l with
  | nil => rfl
  | cons c cs =>
    exact List.dropWhile_cons_of_neg (by simp [h c (List.mem_cons_self c cs)])

/-- `dropWhile` consumes a list all of whose elements satisfy the predicate. -/
theorem dropWhile_nil_of_all (p : Char → Bool) :
    ∀ l : List Char, (∀ c ∈ l, p c = true) → l.dropWhile p = [] := by
  intro l
  induction l with
  | nil => intro _; rfl
  | cons c cs ih =>
    intro h
    rw [List.dropWhile_cons_of_pos (h c (List.mem_cons_self c cs))]
    exact ih fun x hx => h x (List.mem_cons_of_mem c hx)

/-- `str.strip()` is the identity on whitespace-free text. -/
theorem pyStrip_id {t : List Char} (ht : ∀ c ∈ t, isPyWs c = false) :
    pyStrip t = t := by
  unfold pyStrip
  rw [dropWhile_self_of_none isPyWs t ht]
  rw [dropWhile_self_of_none isPyWs t.reverse
    (fun c hc => ht c (List.mem_reverse.mp hc))]
  exact List.reverse_reverse t

/-- The line-splitting/stripping/rejoining step of `_basic_cleanup` is the
identity on non-empty whitespace-free text. -/
theorem splitLinesJoin_id {t : List Char} (hws : ∀ c ∈ t, isPyWs c = false)
    (htne : t ≠ []) : splitLinesJoin t = t := by
  unfold splitLinesJoin
  have hnl : '\n' ∉ t := by
    intro hmem
    have := hws '\n' hmem
    revert this
    decide
  rw [splitNl_of_noNL t hnl]
  simp only [List.map_cons, List.map_nil, pyStrip_id hws]
  have hfil : List.filter (fun s => !s.isEmpty) [t] = [t] := by
    simp [List.isEmpty_iff, htne]
  rw [hfil]
  simp [List.intercalate]

/-- `mapTokensF` on the empty list. -/
theorem mapTokensF_nil (g : List Char → List Char) (fuel : Nat) :
    mapTokensF g fuel [] = [] := by
  cases fuel <;> rfl

/-- A non-empty text made entirely of word characters is a single token:
`mapTokens` applies `g` to it as a whole. -/
theorem mapTokens_single (g : List Char → List Char) (t : List Char)
    (ht : ∀ c ∈ t, isWordChar c = true) (htne : t ≠ []) :
    mapTokens g t = g t := by
  obtain ⟨c, cs, rfl⟩ := List.exists_cons_of_ne_nil htne
  unfold mapTokens
  simp only [List.length_cons]
  unfold mapTokensF
  rw [if_pos (ht c (List.mem_cons_self c cs))]
  rw [takeWhile_eq_self_of_all cs fun x hx => ht x (List.mem_cons_of_mem c hx)]
  rw [dropWhile_nil_of_all isWordChar cs fun x hx => ht x (List.mem_cons_of_mem c hx)]
  rw [mapTokensF_nil]
  exact List.append_nil _

/-- A single-character literal replacement with a non-word pattern character
is the identity on all-word text. -/
theorem replChar_id_word (a b : Char) (ha : isWordChar a = false)
    {t : List Char} (ht : ∀ c ∈ t, isWordChar c = true) : replChar a b t = t := by
  induction t with
  | nil => rfl
  | cons c cs ih =>
    have hstep : replChar a b (c :: cs) = (if c = a then b else c) :: replChar a b cs := rfl
    rw [hstep, if_neg (word_ne (ht c (List.mem_cons_self c cs)) a ha)]
    rw [ih fun x hx => ht x (List.mem_cons_of_mem c hx)]

/-- A `re.sub` pass whose matcher declines every suffix starting with a word
character is the identity on all-word text. -/
theorem scanReplF_id_word (f : List Char → Option (List Char × Nat))
    (hf : ∀ (c : Char) (cs : List Char), isWordChar c = true → f (c :: cs) = none) :
    ∀ (fuel : Nat) (t : List Char), (∀ c ∈ t, isWordChar c = true) →
      scanReplF f fuel t = t := by
  intro fuel
  induction fuel with
  | zero => intro t _; rfl
  | succ n ih =>
    intro t ht
    match t with
    | [] => rfl
    | c :: cs =>
      unfold scanReplF
      rw [hf c cs (ht c (List.mem_cons_self c cs))]
      rw [ih cs fun x hx => ht x (List.mem_cons_of_mem c hx)]

/-- `scanRepl` version of `scanReplF_id_word`. -/
theorem scanRepl_id_word (f : List Char → Option (List Char × Nat))
    (hf : ∀ (c : Char) (cs : List Char), isWordChar c = true → f (c :: cs) = none)
    {t : List Char} (ht : ∀ c ∈ t, isWordChar c = true) : scanRepl f t = t :=
  scanReplF_id_word f hf t.length t ht

/-- The whitespace-punctuation matcher declines word-character heads. -/
theorem mWsPunct_none_word {c : Char} (cs : List Char)
    (h : isWordChar c = true) : mWsPunct (c :: cs) = none := by
  unfold mWsPunct
  dsimp only
  rw [if_neg]
  rw [word_not_ws h]
  exact Bool.noConfusion

/-- The open-bracket matcher declines word-character heads (for a non-word
bracket). -/
theorem mOpenWs_none_word (br : Char) (hbr : isWordChar br = false) {c : Char}
    (cs : List Char) (h : isWordChar c = true) : mOpenWs br (c :: cs) = none := by
  unfold mOpenWs
  dsimp only
  rw [if_neg (word_ne h br hbr)]

/-- The close-bracket matcher declines word-character heads. -/
theorem mWsClose_none_word (br : Char) {c : Char} (cs : List Char)
    (h : isWordChar c = true) : mWsClose br (c :: cs) = none := by
  unfold mWsClose
  dsimp only
  rw [if_neg]
  rw [word_not_ws h]
  exact Bool.noConfusion

/-- The whitespace-collapsing matcher declines word-character heads. -/
theorem mWsCollapse_none_word {c : Char} (cs : List Char)
    (h : isWordChar c = true) : mWsCollapse (c :: cs) = none := by
  unfold mWsCollapse
  dsimp only
  rw [if_neg]
  rw [word_not_ws h]
  exact Bool.noConfusion

/-- The blank-line matcher declines word-character heads. -/
theorem mBlankLines_none_word {c : Char} (cs : List Char)
    (h : isWordChar c = true) : mBlankLines (c :: cs) = none := by
  unfold mBlankLines
  dsimp only
  rw [if_neg (word_ne h '\n' (by decide))]

/-- The stray-quote literal matcher declines word-character heads (its
pattern starts with a colon). -/
theorem mLiteral_stray_none_word {c : Char} (cs : List Char)
    (h : isWordChar c = true) : mLiteral strayQuotePat [q1] (c :: cs) = none := by
  unfold mLiteral
  rw [if_neg]
  intro hlw
  rw [show strayQuotePat =
    ':' :: ([' ', q2, q1, q2, ',', '\n'] ++ List.replicate 12 ' ' ++ ['r']) from rfl] at hlw
  unfold leadsWith at hlw
  simp only [Bool.and_eq_true, decide_eq_true_eq] at hlw
  exact word_ne h ':' (by decide) hlw.1.symm

/-- The nine letter/digit confusion passes of `_basic_cleanup` on one
token, in dict order. -/
def fixChain (t : List Char) : List Char :=
  fixLetterInDigits 'B' '8'
    (fixLetterInDigits 'S' '5'
      (fixLetterInDigits 'I' '1'
        (fixLetterInDigits 'O' '0'
          (fixDigitInLetters '6' 'G'
            (fixDigitInLetters '8' 'B'
              (fixDigitInLetters '5' 'S'
                (fixDigitInLetters '1' 'I'
                  (fixDigitInLetters '0' 'O' t))))))))

/-- On a non-empty input all of whose characters are word characters,
`_basic_cleanup` reduces to the nine confusion passes applied to the single
token: every other pattern of the table needs a whitespace or another
non-word character to match. -/
theorem basicCleanup_token (t : List Char) (ht : ∀ c ∈ t, isWordChar c = true)
    (htne : t ≠ []) : basicCleanup t = fixChain t := by
  have hstep : ∀ (cls : Char → Bool) (d X : Char), isWordChar X = true →
      ∀ u : List Char, (∀ c ∈ u, isWordChar c = true) → u ≠ [] →
      mapTokens (fixConfusion cls d X) u = fixConfusion cls d X u ∧
        (∀ c ∈ fixConfusion cls d X u, isWordChar c = true) ∧
        fixConfusion cls d X u ≠ [] := by
    intro cls d X hX u hu hune
    refine ⟨mapTokens_single _ u hu hune, ?_, fixConfusion_ne_nil cls d X hune⟩
    intro c hc
    rcases fixConfusion_mem cls d X hc with h1 | h1
    · exact hu c h1
    · exact h1 ▸ hX
  obtain ⟨e1, w1, n1⟩ := hstep letterClass '0' 'O' (by decide) t ht htne
  obtain ⟨e2, w2, n2⟩ := hstep letterClass '1' 'I' (by decide) _ w1 n1
  obtain ⟨e3, w3, n3⟩ := hstep letterClass '5' 'S' (by decide) _ w2 n2
  obtain ⟨e4, w4, n4⟩ := hstep letterClass '8' 'B' (by decide) _ w3 n3
  obtain ⟨e5, w5, n5⟩ := hstep letterClass '6' 'G' (by decide) _ w4 n4
  obtain ⟨e6, w6, n6⟩ := hstep isDigitCh 'O' '0' (by decide) _ w5 n5
  obtain ⟨e7, w7, n7⟩ := hstep isDigitCh 'I' '1' (by decide) _ w6 n6
  obtain ⟨e8, w8, n8⟩ := hstep isDigitCh 'S' '5' (by decide) _ w7 n7
  obtain ⟨e9, w9, n9⟩ := hstep isDigitCh 'B' '8' (by decide) _ w8 n8
  unfold basicCleanup
  delta fixDigitInLetters fixLetterInDigits
  dsimp only
  rw [show nfkc t = t from rfl]
  rw [splitLinesJoin_id (fun c hc => word_not_ws (ht c hc)) htne]
  rw [e1, e2, e3, e4, e5, e6, e7, e8, e9]
  rw [replChar_id_word '|' 'I' (by decide) w9]
  rw [replChar_id_word btick q1 (by decide) w9]
  rw [replChar_id_word '´' q1 (by decide) w9]
  rw [scanRepl_id_word _ (fun c cs hc => mLiteral_stray_none_word cs hc) w9]
  rw [replChar_id_word q2 q2 (by decide) w9]
  rw [replChar_id_word '°' 'o' (by decide) w9]
  rw [replChar_id_word '¢' 'c' (by decide) w9]
  rw [replChar_id_word '£' 'E' (by decide) w9]
  rw [scanRepl_id_word _ (fun c cs hc => mWsPunct_none_word cs hc) w9]
  rw [scanRepl_id_word _ (fun c cs hc => mOpenWs_none_word '(' (by decide) cs hc) w9]
  rw [scanRepl_id_word _ (fun c cs hc => mWsClose_none_word ')' cs hc) w9]
  rw [scanRepl_id_word _ (fun c cs hc => mOpenWs_none_word '[' (by decide) cs hc) w9]
  rw [scanRepl_id_word _ (fun c cs hc => mWsClose_none_word ']' cs hc) w9]
  rw [scanRepl_id_word _ (fun c cs hc => mWsCollapse_none_word cs hc) w9]
  rw [scanRepl_id_word _ (fun c cs hc => mBlankLines_none_word cs hc) w9]
  rfl

/-- The confusion chain keeps every character a word character. -/
theorem fixChain_all_word {t : List Char} (ht : ∀ c ∈ t, isWordChar c = true) :
    ∀ c ∈ fixChain t, isWordChar c = true := by
  unfold fixChain fixDigitInLetters fixLetterInDigits
  have step : ∀ (cls : Char → Bool) (d X : Char), isWordChar X = true →
      ∀ {u : List Char}, (∀ c ∈ u, isWordChar c = true) →
      ∀ c ∈ fixConfusion cls d X u, isWordChar c = true := by
    intro cls d X hX u hu c hc
    rcases fixConfusion_mem cls d X hc with h1 | h1
    · exact hu c h1
    · exact h1 ▸ hX
  exact step _ _ _ (by decide) (step _ _ _ (by decide) (step _ _ _ (by decide)
    (step _ _ _ (by decide) (step _ _ _ (by decide) (step _ _ _ (by decide)
      (step _ _ _ (by decide) (step _ _ _ (by decide) (step _ _ _ (by decide) ht))))))))

/-- `process_advanced` on a single non-empty all-word-character token (with
a language and document type that have no correction tables) is exactly the
confusion chain. -/
theorem processAdvanced_token (t : List Char) (ht : ∀ c ∈ t, isWordChar c = true)
    (htne : t ≠ []) :
    (processAdvanced (String.mk t) "fr" "general").text = String.mk (fixChain t) := by
  have hne_str : ¬(String.mk t = "") := fun he => htne (congrArg String.data he)
  unfold processAdvanced
  rw [if_neg hne_str]
  dsimp only
  rw [show (String.mk t).toList = t from rfl]
  rw [basicCleanup_token t ht htne]
  rw [show applyLanguageCorrections (fixChain t) "fr" = (fixChain t, 0) from rfl]
  rw [show applyDocumentCorrections (fixChain t) "general" = (fixChain t, 0) from rfl]
  rw [pyStrip_id (fun c hc => word_not_ws (fixChain_all_word ht c hc))]

/-- The confusion chain on a token `letters, d, letters` for each of the
five digit→letter pairs: the digit is replaced by its look-alike letter. -/
theorem fixChain_letters (p q : List Char)
    (hp : ∀ c ∈ p, letterClass c = true) (hq : ∀ c ∈ q, letterClass c = true)
    (hpne : p ≠ []) (hqne : q ≠ []) (d X : Char)
    (hmem : (d, X) ∈ ([('0', 'O'), ('1', 'I'), ('5', 'S'), ('8', 'B'), ('6', 'G')]
      : List (Char × Char))) :
    fixChain (p ++ d :: q) = p ++ X :: q := by
  have hall : ∀ Y : Char, letterClass Y = true →
      ∀ c ∈ p ++ Y :: q, letterClass c = true := by
    intro Y hY c hc
    rcases List.mem_append.mp hc with h1 | h1
    · exact hp c h1
    · rcases List.mem_cons.mp h1 with h2 | h2
      · exact h2 ▸ hY
      · exact hq c h2
  have hne2 : ∀ Y : Char, p ++ Y :: q ≠ [] := by intro Y; simp
  have hdig : ∀ t : List Char, (∀ c ∈ t, letterClass c = true) → t ≠ [] →
      fixConfusion isDigitCh 'B' '8' (fixConfusion isDigitCh 'S' '5'
        (fixConfusion isDigitCh 'I' '1' (fixConfusion isDigitCh 'O' '0' t))) = t := by
    intro t h htne
    obtain ⟨c, cs, rfl⟩ := List.exists_cons_of_ne_nil htne
    have hc := letterClass_not_digit (h c (List.mem_cons_self c cs))
    rw [fixConfusion_id_headno isDigitCh 'O' '0' c cs hc,
        fixConfusion_id_headno isDigitCh 'I' '1' c cs hc,
        fixConfusion_id_headno isDigitCh 'S' '5' c cs hc,
        fixConfusion_id_headno isDigitCh 'B' '8' c cs hc]
  unfold fixChain fixDigitInLetters fixLetterInDigits
  simp only [List.mem_cons, Prod.mk.injEq, List.not_mem_nil, or_false] at hmem
  rcases hmem with ⟨rfl, rfl⟩ | ⟨rfl, rfl⟩ | ⟨rfl, rfl⟩ | ⟨rfl, rfl⟩ | ⟨rfl, rfl⟩
  · rw [fixConfusion_hit letterClass '0' 'O' p q hp hq hpne hqne (by decide)]
    rw [fixConfusion_id_all letterClass '1' 'I' _ (hall 'O' (by decide)),
        fixConfusion_id_all letterClass '5' 'S' _ (hall 'O' (by decide)),
        fixConfusion_id_all letterClass '8' 'B' _ (hall 'O' (by decide)),
        fixConfusion_id_all letterClass '6' 'G' _ (hall 'O' (by decide))]
    exact hdig _ (hall 'O' (by decide)) (hne2 'O')
  · rw [fixConfusion_wrong_sep letterClass '0' 'O' p '1' q hp (by decide) (by decide)]
    rw [fixConfusion_hit letterClass '1' 'I' p q hp hq hpne hqne (by decide)]
    rw [fixConfusion_id_all letterClass '5' 'S' _ (hall 'I' (by decide)),
        fixConfusion_id_all letterClass '8' 'B' _ (hall 'I' (by decide)),
        fixConfusion_id_all letterClass '6' 'G' _ (hall 'I' (by decide))]
    exact hdig _ (hall 'I' (by decide)) (hne2 'I')
  · rw [fixConfusion_wrong_sep letterClass '0' 'O' p '5' q hp (by decide) (by decide),
        fixConfusion_wrong_sep letterClass '1' 'I' p '5' q hp (by decide) (by decide)]
    rw [fixConfusion_hit letterClass '5' 'S' p q hp hq hpne hqne (by decide)]
    rw [fixConfusion_id_all letterClass '8' 'B' _ (hall 'S' (by decide)),
        fixConfusion_id_all letterClass '6' 'G' _ (hall 'S' (by decide))]
    exact hdig _ (hall 'S' (by decide)) (hne2 'S')
  · rw [fixConfusion_wrong_sep letterClass '0' 'O' p '8' q hp (by decide) (by decide),
        fixConfusion_wrong_sep letterClass '1' 'I' p '8' q hp (by decide) (by decide),
        fixConfusion_wrong_sep letterClass '5' 'S' p '8' q hp (by decide) (by decide)]
    rw [fixConfusion_hit letterClass '8' 'B' p q hp hq hpne hqne (by decide)]
    rw [fixConfusion_id_all letterClass '6' 'G' _ (hall 'B' (by decide))]
    exact hdig _ (hall 'B' (by decide)) (hne2 'B')
  · rw [fixConfusion_wrong_sep letterClass '0' 'O' p '6' q hp (by decide) (by decide),
        fixConfusion_wrong_sep letterClass '1' 'I' p '6' q hp (by decide) (by decide),
        fixConfusion_wrong_sep letterClass '5' 'S' p '6' q hp (by decide) (by decide),
        fixConfusion_wrong_sep letterClass '8' 'B' p '6' q hp (by decide) (by decide)]
    rw [fixConfusion_hit letterClass '6' 'G' p q hp hq hpne hqne (by decide)]
    exact hdig _ (hall 'G' (by decide)) (hne2 'G')

/-- The confusion chain on a token `digits, X, digits` for each of the four
letter→digit pairs: the letter is replaced by its look-alike digit. -/
theorem fixChain_digits (p q : List Char)
    (hp : ∀ c ∈ p, isDigitCh c = true) (hq : ∀ c ∈ q, isDigitCh c = true)
    (hpne : p ≠ []) (hqne : q ≠ []) (X d : Char)
    (hmem : (X, d) ∈ ([('O', '0'), ('I', '1'), ('S', '5'), ('B', '8')]
      : List (Char × Char))) :
    fixChain (p ++ X :: q) = p ++ d :: q := by
  have hall : ∀ Y : Char, isDigitCh Y = true →
      ∀ c ∈ p ++ Y :: q, isDigitCh c = true := by
    intro Y hY c hc
    rcases List.mem_append.mp hc with h1 | h1
    · exact hp c h1
    · rcases List.mem_cons.mp h1 with h2 | h2
      · exact h2 ▸ hY
      · exact hq c h2
  obtain ⟨c0, p', rfl⟩ := List.exists_cons_of_ne_nil hpne
  have hc0 : letterClass c0 = false :=
    digit_not_letterClass (hp c0 (List.mem_cons_self c0 p'))
  simp only [List.mem_cons, Prod.mk.injEq, List.not_mem_nil, or_false] at hmem
  unfold fixChain fixDigitInLetters fixLetterInDigits
  have eL : ∀ Y dP XP : Char,
      fixConfusion letterClass dP XP ((c0 :: p') ++ Y :: q) = (c0 :: p') ++ Y :: q := by
    intro Y dP XP
    rw [List.cons_append]
    rw [fixConfusion_id_headno letterClass dP XP c0 (p' ++ Y :: q) hc0]
  rcases hmem with ⟨rfl, rfl⟩ | ⟨rfl, rfl⟩ | ⟨rfl, rfl⟩ | ⟨rfl, rfl⟩
  · rw [eL 'O' '0' 'O', eL 'O' '1' 'I', eL 'O' '5' 'S', eL 'O' '8' 'B', eL 'O' '6' 'G']
    rw [fixConfusion_hit isDigitCh 'O' '0' (c0 :: p') q hp hq (by simp) hqne (by decide)]
    rw [fixConfusion_id_all isDigitCh 'I' '1' _ (hall '0' (by decide)),
        fixConfusion_id_all isDigitCh 'S' '5' _ (hall '0' (by decide)),
        fixConfusion_id_all isDigitCh 'B' '8' _ (hall '0' (by decide))]
  · rw [eL 'I' '0' 'O', eL 'I' '1' 'I', eL 'I' '5' 'S', eL 'I' '8' 'B', eL 'I' '6' 'G']
    rw [fixConfusion_wrong_sep isDigitCh 'O' '0' (c0 :: p') 'I' q hp (by decide) (by decide)]
    rw [fixConfusion_hit isDigitCh 'I' '1' (c0 :: p') q hp hq (by simp) hqne (by decide)]
    rw [fixConfusion_id_all isDigitCh 'S' '5' _ (hall '1' (by decide)),
        fixConfusion_id_all isDigitCh 'B' '8' _ (hall '1' (by decide))]
  · rw [eL 'S' '0' 'O', eL 'S' '1' 'I', eL 'S' '5' 'S', eL 'S' '8' 'B', eL 'S' '6' 'G']
    rw [fixConfusion_wrong_sep isDigitCh 'O' '0' (c0 :: p') 'S' q hp (by decide) (by decide),
        fixConfusion_wrong_sep isDigitCh 'I' '1' (c0 :: p') 'S' q hp (by decide) (by decide)]
    rw [fixConfusion_hit isDigitCh 'S' '5' (c0 :: p') q hp hq (by simp) hqne (by decide)]
    rw [fixConfusion_id_all isDigitCh 'B' '8' _ (hall '5' (by decide))]
  · rw [eL 'B' '0' 'O', eL 'B' '1' 'I', eL 'B' '5' 'S', eL 'B' '8' 'B', eL 'B' '6' 'G']
    rw [fixConfusion_wrong_sep isDigitCh 'O' '0' (c0 :: p') 'B' q hp (by decide) (by decide),
        fixConfusion_wrong_sep isDigitCh 'I' '1' (c0 :: p') 'B' q hp (by decide) (by decide),
        fixConfusion_wrong_sep isDigitCh 'S' '5' (c0 :: p') 'B' q hp (by decide) (by decide)]
    rw [fixConfusion_hit isDigitCh 'B' '8' (c0 :: p') q hp hq (by simp) hqne (by decide)]

/-- C8 counterexample: the spec's own example is wrong.  In `"OCR 0xygen"`
the digit `0` heads its token, so the pattern
`\b([A-Za-záéíóúüñ]+)0([A-Za-záéíóúüñ]+)\b` — which needs a non-empty
letter run BEFORE the digit — does not match, and the text is returned
unchanged, not as `"OCR Oxygen"`. -/
theorem C8_cex_oxygen_unchanged :
    (processAdvanced "OCR 0xygen" "es" "general").text = "OCR 0xygen" ∧
    ¬((processAdvanced "OCR 0xygen" "es" "general").text = "OCR Oxygen") := by
  constructor
  · decide
  · decide

/-- C8: AMENDED — the confusion corrections fire only when the digit (resp.
letter) is STRICTLY INTERIOR to a token whose remaining characters are all
of the opposite class: for every token `letters, d, letters` the digit
`d ∈ {0,1,5,8,6}` becomes its look-alike letter, for every token
`digits, X, digits` the letter `X ∈ {O,I,S,B}` becomes its look-alike digit
(there is no G→6 entry), pure digit runs (`"2024"`) and mixed codes
(`"R2D2"`) are unchanged — and so is `"OCR 0xygen"`, whose digit heads its
token: the spec's expected `"OCR Oxygen"` does not happen. -/
theorem C8_amended_interior_confusion_only :
    (∀ p q : List Char, (∀ c ∈ p, letterClass c = true) →
      (∀ c ∈ q, letterClass c = true) → p ≠ [] → q ≠ [] →
      ∀ d X : Char,
        (d, X) ∈ ([('0', 'O'), ('1', 'I'), ('5', 'S'), ('8', 'B'), ('6', 'G')]
          : List (Char × Char)) →
        (processAdvanced (String.mk (p ++ d :: q)) "fr" "general").text
          = String.mk (p ++ X :: q)) ∧
    (∀ p q : List Char, (∀ c ∈ p, isDigitCh c = true) →
      (∀ c ∈ q, isDigitCh c = true) → p ≠ [] → q ≠ [] →
      ∀ X d : Char,
        (X, d) ∈ ([('O', '0'), ('I', '1'), ('S', '5'), ('B', '8')]
          : List (Char × Char)) →
        (processAdvanced (String.mk (p ++ X :: q)) "fr" "general").text
          = String.mk (p ++ d :: q)) ∧
    (processAdvanced "2024" "fr" "general").text = "2024" ∧
    (processAdvanced "R2D2" "fr" "general").text = "R2D2" ∧
    (processAdvanced "OCR 0xygen" "fr" "general").text = "OCR 0xygen" := by
  refine ⟨?_, ?_, by decide, by decide, by decide⟩
  · intro p q hp hq hpne hqne d X hmem
    have ht : ∀ c ∈ p ++ d :: q, isWordChar c = true := by
      intro c hc
      rcases List.mem_append.mp hc with h1 | h1
      · exact letterClass_word (hp c h1)
      · rcases List.mem_cons.mp h1 with h2 | h2
        · rw [h2]
          fin_cases hmem <;> decide
        · exact letterClass_word (hq c h2)
    rw [processAdvanced_token _ ht (by simp)]
    exact congrArg String.mk (fixChain_letters p q hp hq hpne hqne d X hmem)
  · intro p q hp hq hpne hqne X d hmem
    have ht : ∀ c ∈ p ++ X :: q, isWordChar c = true := by
      intro c hc
      rcases List.mem_append.mp hc with h1 | h1
      · exact digit_word (hp c h1)
      · rcases List.mem_cons.mp h1 with h2 | h2
        · rw [h2]
          fin_cases hmem <;> decide
        · exact digit_word (hq c h2)
    rw [processAdvanced_token _ ht (by simp)]
    exact congrArg String.mk (fixChain_digits p q hp hq hpne hqne X d hmem)

/-- Witness for `C8_amended_interior_confusion_only`: the token `a0b`
becomes `aOb` and the token `4O2` becomes `402`. -/
theorem C8_amended_witness :
    (processAdvanced (String.mk (['a'] ++ '0' :: ['b'])) "fr" "general").text
      = String.mk (['a'] ++ 'O' :: ['b']) ∧
    (processAdvanced (String.mk (['4'] ++ 'O' :: ['2'])) "fr" "general").text
      = String.mk (['4'] ++ '0' :: ['2']) :=
  ⟨C8_amended_interior_confusion_only.1 ['a'] ['b'] (by decide) (by decide)
      (by decide) (by decide) '0' 'O' (by decide),
    C8_amended_interior_confusion_only.2.1 ['4'] ['2'] (by decide) (by decide)
      (by decide) (by decide) 'O' '0' (by decide)⟩
